import Mathlib

/-!
Verification development for the harmony-go repository.

This file gives a shallow embedding, in Lean 4, of the parts of
harmony-go that the verified properties are about:

* the Harmony special-token table (`tokenizer`, file with
  `buildHarmonySpecials`);
* the byte-pair-encoding core (`tokenizer/bpe.go`): the ordinary encode
  path (segment loop plus `bytePairMerge`/`bytePairEncode`) and the
  decode path (`DecodeBytesInto`);
* the O200k segmenter (`tokenizer/segmenter.go`);
* the conversation renderer (`encoding.go`: `renderMessageInto`,
  `RenderConversation`, `RenderConversationForTraining`) and the system
  body builder (`render_system.go`: `renderSystemContent`);
* the header helpers (`header_helpers.go`) and the streaming parser
  (`render_system.go`: `StreamParser`).

Modelling conventions:

* Go byte strings are modelled as `List Nat` (each entry one byte);
  Go `string` values that are only inspected character-wise are
  modelled as Lean `String` via its `List Char` data.
* Machine integers (`uint32` ranks and token ids) are `Nat`; the BPE
  sentinel `^uint32(0)` is the explicit constant `maxRank = 2^32 - 1`.
  No arithmetic in the modelled code can overflow below that sentinel.
* Go `for` loops are modelled as structurally recursive functions over
  an explicit fuel argument.  The fuel passed at each call site is an
  upper bound on the number of iterations the Go loop can perform
  (each iteration strictly increases an index bounded by the input
  length, or strictly decreases the list length), so the Lean function
  computes exactly what the Go loop computes.
* External collaborators of the modelled code (the loaded O200k
  vocabulary tables, the injected `Segmenter`, the Unicode
  classification functions of the Go standard library, and the BPE
  encode/decode entry points as used by the renderer and parser) are
  parameters of the model, constrained only by the contracts stated in
  the theorems that need them.
* Fallible Go code (functions returning `error`) is modelled with
  `Option`: `none` is the error case.
-/

namespace HarmonyGo

/-! ## Harmony special token ids (tokenizer constants) -/

/-- Harmony special token id `<|startoftext|>` (Go `TokStartOfText`). -/
def tokStartOfText : Nat := 199998

/-- Harmony special token id `<|endoftext|>` (Go `TokEndOfText`). -/
def tokEndOfText : Nat := 199999

/-- Harmony special token id `<|return|>` (Go `TokReturn`). -/
def tokReturn : Nat := 200002

/-- Harmony special token id `<|constrain|>` (Go `TokConstrain`). -/
def tokConstrain : Nat := 200003

/-- Harmony special token id `<|channel|>` (Go `TokChannel`). -/
def tokChannel : Nat := 200005

/-- Harmony special token id `<|start|>` (Go `TokStart`). -/
def tokStart : Nat := 200006

/-- Harmony special token id `<|end|>` (Go `TokEnd`). -/
def tokEnd : Nat := 200007

/-- Harmony special token id `<|message|>` (Go `TokMessage`). -/
def tokMessage : Nat := 200008

/-- Harmony special token id `<|call|>` (Go `TokCall`). -/
def tokCall : Nat := 200012

/-- Start of the Harmony reserved id range (Go `ReservedStart`). -/
def reservedStart : Nat := 200014

/-- End (inclusive) of the Harmony reserved id range (Go `ReservedEnd`). -/
def reservedEnd : Nat := 201088

/-! ## Bytes and UTF-8 literals

`Bytes` models Go `[]byte`.  `utf8Bytes`/`strBytes` model the Go
conversion `[]byte(string-literal)`: the UTF-8 encoding of the string.
All literals the model applies them to are ASCII. -/

/-- A Go byte slice: a list of byte values. -/
abbrev Bytes := List Nat

/-- UTF-8 encoding of a single character, as Go produces it when a
string literal is converted to `[]byte`. -/
def utf8Bytes (c : Char) : Bytes :=
  let n := c.toNat
  if n < 0x80 then [n]
  else if n < 0x800 then
    [0xC0 + n / 0x40, 0x80 + n % 0x40]
  else if n < 0x10000 then
    [0xE0 + n / 0x1000, 0x80 + n / 0x40 % 0x40, 0x80 + n % 0x40]
  else
    [0xF0 + n / 0x40000, 0x80 + n / 0x1000 % 0x40, 0x80 + n / 0x40 % 0x40,
      0x80 + n % 0x40]

/-- UTF-8 bytes of a string, as Go `[]byte(s)`. -/
def strBytes (s : String) : Bytes :=
  s.data.flatMap utf8Bytes

/-- Decode side of the Harmony specials table built by Go
`buildHarmonySpecials` (the `specialDec` map of `coreBPE`): the literal
bytes for each special id, including the reserved range
`200014..=201088` whose literals are `<|reserved_N|>`. -/
def harmonySpecialDec (t : Nat) : Option Bytes :=
  if t = tokStartOfText then some (strBytes "<|startoftext|>")
  else if t = tokEndOfText then some (strBytes "<|endoftext|>")
  else if t = tokReturn then some (strBytes "<|return|>")
  else if t = tokConstrain then some (strBytes "<|constrain|>")
  else if t = tokChannel then some (strBytes "<|channel|>")
  else if t = tokStart then some (strBytes "<|start|>")
  else if t = tokEnd then some (strBytes "<|end|>")
  else if t = tokMessage then some (strBytes "<|message|>")
  else if t = tokCall then some (strBytes "<|call|>")
  else if reservedStart ≤ t ∧ t ≤ reservedEnd then
    some (strBytes ("<|reserved_" ++ Nat.repr t ++ "|>"))
  else none

/-! ## Stop-token sets (encoding.go, `LoadEncoding`)

Go builds `stopAll` and `stopAssistant` as map-backed sets; the order
of the slices returned by `StopTokens`/`StopTokensForAssistantActions`
is map-iteration order, so only the underlying sets are specified.
The lists below carry the exact keys inserted in `LoadEncoding`. -/

/-- Keys of the Go `stopAll` set: `{TokReturn, TokCall, TokEnd}`. -/
def stopAll : List Nat := [tokReturn, tokCall, tokEnd]

/-- Keys of the Go `stopAssistant` set: `{TokReturn, TokCall}`. -/
def stopAssistant : List Nat := [tokReturn, tokCall]

/-! ## BPE core (tokenizer/bpe.go)

The tables of `coreBPE` are built from the loaded O200k vocabulary,
which is external data (the loader downloads or reads
`o200k_base.tiktoken`); the model therefore carries them as function
parameters bundled in `CoreBPE`:

* `encFn` models the forward map `b.enc` (`none` = key absent; a Go
  map read of an absent key yields the zero value `0`, modelled by
  `Option.getD 0` at the lookup sites that do not test presence);
* `decFn` models the decoder store `b.dec` (`AppendInto` returning
  `false` is `none`);
* `specialDec` models `b.specialDec`;
* `seg` models the injected `Segmenter.Next`. -/

/-- The BPE core with its externally-loaded tables. -/
structure CoreBPE where
  encFn : Bytes → Option Nat
  decFn : Nat → Option Bytes
  specialDec : Nat → Option Bytes
  seg : Bytes → Nat → Nat

/-- The Go sentinel rank `^uint32(0)`. -/
def maxRank : Nat := 2 ^ 32 - 1

/-- Go slice expression `piece[a:b]`. -/
def sub (piece : Bytes) (a b : Nat) : Bytes :=
  (piece.drop a).take (b - a)

/-- One entry of the `parts` working array of `bytePairMerge`. -/
structure Part where
  start : Nat
  rank : Nat
deriving Repr, DecidableEq

instance : Inhabited Part := ⟨⟨0, 0⟩⟩

/-- Indexing into `parts` as Go does (indices are always in bounds in
the modelled code; out-of-bounds reads return the dummy `⟨0,0⟩`). -/
def getPart (parts : List Part) (j : Nat) : Part :=
  parts.getD j ⟨0, 0⟩

/-- Writing `parts[j].rank = r` (identity when `j` is out of bounds,
which the modelled code never does). -/
def setRank : List Part → Nat → Nat → List Part
  | [], _, _ => []
  | p :: ps, 0, r => ⟨p.start, r⟩ :: ps
  | p :: ps, j + 1, r => p :: setRank ps j r

/-- Removing the entry at an index, i.e. Go
`append(parts[:j], parts[j+1:]...)`. -/
def eraseAt {α : Type} : List α → Nat → List α
  | [], _ => []
  | _ :: ps, 0 => ps
  | p :: ps, j + 1 => p :: eraseAt ps j

/-- Go `coreBPE.getRank`: the rank of the 3-part span starting at
index `i`, or `maxRank` when the span does not exist or its bytes are
not in the vocabulary. -/
def getRank (B : CoreBPE) (piece : Bytes) (parts : List Part) (i : Nat) : Nat :=
  if i + 3 < parts.length then
    match B.encFn (sub piece (getPart parts i).start (getPart parts (i + 3)).start) with
    | some r => r
    | none => maxRank
  else maxRank

/-- The initial `parts` array of `bytePairMerge`: one entry per byte
position carrying the rank of the adjacent byte pair starting there,
plus the two sentinel entries. -/
def initParts (B : CoreBPE) (piece : Bytes) : List Part :=
  ((List.range (piece.length - 1)).map fun i =>
    { start := i,
      rank := match B.encFn (sub piece i (i + 2)) with
              | some r => r
              | none => maxRank })
  ++ [⟨piece.length - 1, maxRank⟩, ⟨piece.length, maxRank⟩]

/-- The scan of `bytePairMerge` that locates the lowest-rank adjacent
pair: Go scans `j` over `0 ≤ j < len(parts)-1`, keeping the first
strict minimum, and ends with the sentinel pair `(maxRank, -1)` when
no rank is below `maxRank` (modelled as `none`). `j` is the absolute
index of the head of `l` in the full array. -/
def findMinGo (l : List Part) (j : Nat) (best : Option (Nat × Nat)) :
    Option (Nat × Nat) :=
  match l with
  | [] => best
  | [_] => best
  | p :: q :: rest =>
      let best' :=
        match best with
        | none => if p.rank < maxRank then some (p.rank, j) else none
        | some (br, _) => if p.rank < br then some (p.rank, j) else best
      findMinGo (q :: rest) (j + 1) best'

/-- The minimum scan of `bytePairMerge` over the whole array. -/
def findMin (parts : List Part) : Option (Nat × Nat) :=
  findMinGo parts 0 none

/-- The merge loop of Go `bytePairMerge`: while some adjacent pair has
rank below the sentinel, re-rank the two affected neighbours of the
lowest-rank pair and remove its right boundary.  Each iteration
removes one entry, so fuel `parts.length` is enough for the loop to
run to completion. -/
def mergeLoop (B : CoreBPE) (piece : Bytes) (parts : List Part) :
    Nat → List Part
  | 0 => parts
  | fuel + 1 =>
    match findMin parts with
    | none => parts
    | some (_, i) =>
      let parts1 := if 0 < i then setRank parts (i - 1) (getRank B piece parts (i - 1)) else parts
      let parts2 := setRank parts1 i (getRank B piece parts1 i)
      let parts3 := eraseAt parts2 (i + 1)
      mergeLoop B piece parts3 fuel

/-- Go `coreBPE.bytePairMerge`. -/
def bytePairMerge (B : CoreBPE) (piece : Bytes) : List Part :=
  let parts := initParts B piece
  mergeLoop B piece parts parts.length

/-- Go `coreBPE.bytePairEncode`: single-byte pieces are looked up
directly; longer pieces run the merge and emit one token per remaining
boundary. -/
def bytePairEncode (B : CoreBPE) (piece : Bytes) : List Nat :=
  if piece.length = 1 then [(B.encFn piece).getD 0]
  else
    let parts := bytePairMerge B piece
    (List.range (parts.length - 1)).map fun w =>
      (B.encFn (sub piece (getPart parts w).start (getPart parts (w + 1)).start)).getD 0

/-- The segment loop of Go `coreBPE.encodeInto` with
`allowedSpecial = nil` (the ordinary path: `hasSpecials` is `false`,
so the special-token branch is dead).  Each iteration advances `i` by
at least one, so fuel `text.length` runs the loop to completion. -/
def encodeLoop (B : CoreBPE) (text : Bytes) (i : Nat) : Nat → List Nat
  | 0 => []
  | fuel + 1 =>
    if i < text.length then
      let end0 := B.seg text i
      let e := if end0 ≤ i then i + 1 else end0
      let piece := sub text i e
      let toks :=
        match B.encFn piece with
        | some id => [id]
        | none => bytePairEncode B piece
      toks ++ encodeLoop B text e fuel
    else []

/-- Go `coreBPE.EncodeOrdinary` / `EncodeIntoOrdinary` (no special
tokens allowed). -/
def encodeOrdinary (B : CoreBPE) (text : Bytes) : List Nat :=
  encodeLoop B text 0 text.length

/-- One step of Go `coreBPE.DecodeBytesInto`: resolve a token id
through the rank store first, then through the specials table. -/
def decodeTok (B : CoreBPE) (t : Nat) : Option Bytes :=
  match B.decFn t with
  | some bs => some bs
  | none => B.specialDec t

/-- Go `coreBPE.DecodeBytesInto`: append decoder bytes for each id in
order into the destination; an id found in neither table is a fatal
error.  (The Go loop appends into an accumulator; the recursion below
produces the same bytes and the same error cases.) -/
def decodeBytes (B : CoreBPE) : List Nat → Option Bytes
  | [] => some []
  | t :: ts => (decodeTok B t).bind fun bs => (decodeBytes B ts).map (bs ++ ·)

/-- The list of byte spans between consecutive boundaries (used to
state what `bytePairEncode` emits). -/
def pairsMap {β : Type} (g : Nat → Nat → β) : List Nat → List β
  | a :: b :: rest => g a b :: pairsMap g (b :: rest)
  | _ => []

/-! ### The merge-loop invariant -/

/-- The invariant maintained by `bytePairMerge`'s working array:
the boundaries partition `piece` in increasing order from `0` to
`piece.length`; every consecutive span is in the vocabulary; a cached
rank below the sentinel witnesses that the span it would merge is in
the vocabulary; and the two final sentinel entries keep rank
`maxRank`. -/
structure MergeInv (B : CoreBPE) (piece : Bytes) (parts : List Part) :
    Prop where
  two_le : 2 ≤ parts.length
  head_start : (parts.map Part.start).head? = some 0
  last_start : (parts.map Part.start).getLast? = some piece.length
  sorted : (parts.map Part.start).Pairwise (· < ·)
  spanB : ∀ j p q, parts[j]? = some p → parts[j + 1]? = some q →
      B.encFn (sub piece p.start q.start) ≠ none
  tripleC : ∀ j p c, parts[j]? = some p → parts[j + 2]? = some c →
      p.rank ≠ maxRank → B.encFn (sub piece p.start c.start) ≠ none
  lastD : ∀ j p, parts[j]? = some p → parts.length ≤ j + 2 →
      p.rank = maxRank

/-- What a successful minimum scan guarantees. -/
def GoodMin (parts : List Part) (ri : Nat × Nat) : Prop :=
  ri.1 < maxRank ∧ ri.2 + 1 < parts.length ∧
    ∃ p, parts[ri.2]? = some p ∧ p.rank = ri.1

/-- A small concrete vocabulary used to evaluate the theorems on
explicit inputs: every byte below 256 is its own rank, and the pair
`[104, 105]` has rank 500. -/
def encW : Bytes → Option Nat := fun p =>
  match p with
  | [b] => if b < 256 then some b else none
  | [a, b] => if a = 104 ∧ b = 105 then some 500 else none
  | _ => none

/-- The decoder store inverting `encW`. -/
def decW : Nat → Option Bytes := fun r =>
  if r = 500 then some [104, 105]
  else if r < 256 then some [r] else none

/-- A concrete `CoreBPE` whose segmenter yields the whole remaining
text as one segment. -/
def bpeW : CoreBPE :=
  { encFn := encW, decFn := decW, specialDec := fun _ => none,
    seg := fun s _ => s.length }

/-! ## O200k segmenter (tokenizer/segmenter.go)

The segmenter walks a byte string with an ASCII fast path; non-ASCII
bytes go through `unicode/utf8` decoding and the `unicode` category
functions of the Go standard library.  Those collaborators are the
`GoUnicode` parameter; its one packaged contract is the documented
behaviour of `utf8.DecodeRuneInString` on a non-empty string: the
returned size is at least 1 (it is 1 even for invalid bytes).  Every
loop is modelled with fuel `s.length`, which bounds the number of
iterations because each one advances the index by at least one byte. -/

/-- The Go standard-library collaborators of the segmenter. -/
structure GoUnicode where
  decodeRune : Bytes → Nat × Nat
  isL : Nat → Bool
  isN : Nat → Bool
  isSpace : Nat → Bool
  decode_pos : ∀ bs : Bytes, bs ≠ [] → 1 ≤ (decodeRune bs).2

/-- Go `isASCIISpace`. -/
def asciiSpace (b : Nat) : Bool :=
  b = 32 ∨ b = 9 ∨ b = 10 ∨ b = 13 ∨ b = 12 ∨ b = 11

/-- Go `isASCIILetter`. -/
def asciiLetter (b : Nat) : Bool :=
  (65 ≤ b ∧ b ≤ 90) ∨ (97 ≤ b ∧ b ≤ 122)

/-- Go `isASCIIDigit`. -/
def asciiDigit (b : Nat) : Bool :=
  48 ≤ b ∧ b ≤ 57

/-- Reading byte `j` and classifying it as Go does at the top of
rule 1: an ASCII byte is its own code point with size 1, anything else
is decoded. -/
def runeAt (U : GoUnicode) (s : Bytes) (j : Nat) : Nat × Nat :=
  let b := s.getD j 0
  if b < 128 then (b, 1) else U.decodeRune (s.drop j)

/-- The rule-6 scan: is the remainder of `s` from `j` all whitespace? -/
def allWSFrom (U : GoUnicode) (s : Bytes) (j : Nat) : Nat → Bool
  | 0 => true
  | fuel + 1 =>
    if j < s.length then
      let b := s.getD j 0
      if b < 128 then
        if asciiSpace b then allWSFrom U s (j + 1) fuel else false
      else
        let rs := U.decodeRune (s.drop j)
        if U.isSpace rs.1 then allWSFrom U s (j + rs.2) fuel else false
    else true

/-- Go `consumeLetterRun`. -/
def consumeLetterRun (U : GoUnicode) (s : Bytes) (j : Nat) : Nat → Nat
  | 0 => j
  | fuel + 1 =>
    if j < s.length then
      let b := s.getD j 0
      if b < 128 then
        if asciiLetter b then consumeLetterRun U s (j + 1) fuel else j
      else
        let rs := U.decodeRune (s.drop j)
        if U.isL rs.1 then consumeLetterRun U s (j + rs.2) fuel else j
    else j

/-- Go `hasCaseInsensitiveSuffixAt` (ASCII case folding by OR 0x20). -/
def hasCISuffixAt (s : Bytes) (i : Nat) (suf : Bytes) : Bool :=
  if s.length < i + suf.length then false
  else (List.range suf.length).all fun k =>
    (s.getD (i + k) 0) ||| 32 = (suf.getD k 0) ||| 32

/-- Go `matchContraction`: an apostrophe followed by one of the seven
contraction suffixes, tried in source order. -/
def matchContraction (s : Bytes) (i : Nat) : Nat :=
  if s.length ≤ i ∨ s.getD i 0 ≠ 39 then i
  else if hasCISuffixAt s (i + 1) [115] then i + 2
  else if hasCISuffixAt s (i + 1) [116] then i + 2
  else if hasCISuffixAt s (i + 1) [114, 101] then i + 3
  else if hasCISuffixAt s (i + 1) [118, 101] then i + 3
  else if hasCISuffixAt s (i + 1) [109] then i + 2
  else if hasCISuffixAt s (i + 1) [108, 108] then i + 3
  else if hasCISuffixAt s (i + 1) [100] then i + 2
  else i

/-- Go `ruleLettersWithContraction` (rule 2). -/
def ruleLettersWithContraction (U : GoUnicode) (s : Bytes) (i : Nat) : Nat :=
  let e := consumeLetterRun U s i s.length
  if i < e then
    let e2 := matchContraction s e
    if e < e2 then e2 else e
  else i

/-- Go `ruleLettersWithPrefixAndContraction` (rule 1). -/
def ruleLettersWithPfx (U : GoUnicode) (s : Bytes) (i : Nat) : Nat :=
  let rs := runeAt U s i
  if ¬(¬U.isSpace rs.1 ∧ ¬U.isL rs.1 ∧ ¬U.isN rs.1) then
    ruleLettersWithContraction U s i
  else
    let j := i + rs.2
    let e := consumeLetterRun U s j s.length
    if j < e then
      let e2 := matchContraction s e
      if e < e2 then e2 else e
    else i

/-- The counting loop of Go `ruleNumbers`; returns the final index and
digit count. -/
def numbersLoop (U : GoUnicode) (s : Bytes) (j count : Nat) :
    Nat → Nat × Nat
  | 0 => (j, count)
  | fuel + 1 =>
    if j < s.length then
      let b := s.getD j 0
      if b < 128 then
        if ¬asciiDigit b ∨ 3 ≤ count then (j, count)
        else numbersLoop U s (j + 1) (count + 1) fuel
      else
        let rs := U.decodeRune (s.drop j)
        if ¬U.isN rs.1 ∨ 3 ≤ count then (j, count)
        else numbersLoop U s (j + rs.2) (count + 1) fuel
    else (j, count)

/-- Go `ruleNumbers` (rule 3). -/
def ruleNumbers (U : GoUnicode) (s : Bytes) (i : Nat) : Nat :=
  let jc := numbersLoop U s i 0 s.length
  if 0 < jc.2 then jc.1 else i

/-- The main loop of Go `rulePunctRun`; returns the final index and
the `had` flag. -/
def punctLoop (U : GoUnicode) (s : Bytes) (j : Nat) (had : Bool) :
    Nat → Nat × Bool
  | 0 => (j, had)
  | fuel + 1 =>
    if j < s.length then
      let b := s.getD j 0
      if b < 128 then
        if asciiSpace b ∨ asciiLetter b ∨ asciiDigit b then (j, had)
        else punctLoop U s (j + 1) true fuel
      else
        let rs := U.decodeRune (s.drop j)
        if U.isSpace rs.1 ∨ U.isL rs.1 ∨ U.isN rs.1 then (j, had)
        else punctLoop U s (j + rs.2) true fuel
    else (j, had)

/-- Go `rulePunctRun` (rule 4). -/
def rulePunctRun (U : GoUnicode) (s : Bytes) (i : Nat) : Nat :=
  let j0 :=
    if i < s.length then
      let b := s.getD i 0
      if b < 128 then
        if asciiSpace b then i + 1 else i
      else
        let rs := U.decodeRune (s.drop i)
        if U.isSpace rs.1 then i + rs.2 else i
    else i
  let jh := punctLoop U s j0 false s.length
  if ¬jh.2 then i
  else
    let j := jh.1
    if j < s.length then
      let b := s.getD j 0
      if b < 128 then
        if b = 13 ∨ b = 10 ∨ b = 47 then j + 1 else j
      else
        let rs := U.decodeRune (s.drop j)
        if rs.1 = 13 ∨ rs.1 = 10 ∨ rs.1 = 47 then j + rs.2 else j
    else j

/-- The first loop of Go `ruleNewlines`: intra-line whitespace. -/
def nlSpacesLoop (U : GoUnicode) (s : Bytes) (j : Nat) : Nat → Nat
  | 0 => j
  | fuel + 1 =>
    if j < s.length then
      let b := s.getD j 0
      if b < 128 then
        if ¬asciiSpace b ∨ b = 13 ∨ b = 10 then j
        else nlSpacesLoop U s (j + 1) fuel
      else
        let rs := U.decodeRune (s.drop j)
        if ¬U.isSpace rs.1 ∨ rs.1 = 13 ∨ rs.1 = 10 then j
        else nlSpacesLoop U s (j + rs.2) fuel
    else j

/-- The second loop of Go `ruleNewlines`: one or more CR/LF, with the
`have` flag. -/
def nlCRLFLoop (U : GoUnicode) (s : Bytes) (j : Nat) (hv : Bool) :
    Nat → Nat × Bool
  | 0 => (j, hv)
  | fuel + 1 =>
    if j < s.length then
      let b := s.getD j 0
      if b < 128 then
        if b ≠ 13 ∧ b ≠ 10 then (j, hv)
        else nlCRLFLoop U s (j + 1) true fuel
      else
        let rs := U.decodeRune (s.drop j)
        if rs.1 ≠ 13 ∧ rs.1 ≠ 10 then (j, hv)
        else nlCRLFLoop U s (j + rs.2) true fuel
    else (j, hv)

/-- The third loop of Go `ruleNewlines`: any additional CR/LF
(no flag). -/
def nlMoreCRLFLoop (U : GoUnicode) (s : Bytes) (j : Nat) : Nat → Nat
  | 0 => j
  | fuel + 1 =>
    if j < s.length then
      let b := s.getD j 0
      if b < 128 then
        if b ≠ 13 ∧ b ≠ 10 then j
        else nlMoreCRLFLoop U s (j + 1) fuel
      else
        let rs := U.decodeRune (s.drop j)
        if rs.1 ≠ 13 ∧ rs.1 ≠ 10 then j
        else nlMoreCRLFLoop U s (j + rs.2) fuel
    else j

/-- Go `ruleNewlines` (rule 5). -/
def ruleNewlines (U : GoUnicode) (s : Bytes) (i : Nat) : Nat :=
  let j1 := nlSpacesLoop U s i s.length
  let jh := nlCRLFLoop U s j1 false s.length
  if ¬jh.2 then i
  else nlMoreCRLFLoop U s jh.1 s.length

/-- The loop of Go `ruleWhitespace` (rule 7). -/
def wsLoop (U : GoUnicode) (s : Bytes) (j : Nat) : Nat → Nat
  | 0 => j
  | fuel + 1 =>
    if j < s.length then
      let b := s.getD j 0
      if b < 128 then
        if asciiSpace b then wsLoop U s (j + 1) fuel else j
      else
        let rs := U.decodeRune (s.drop j)
        if U.isSpace rs.1 then wsLoop U s (j + rs.2) fuel else j
    else j

/-- Go `ruleWhitespace` (rule 7). -/
def ruleWhitespace (U : GoUnicode) (s : Bytes) (i : Nat) : Nat :=
  let j := wsLoop U s i s.length
  if i < j then j else i

/-- Go `o200kSegmenter.Next`: the 7-rule priority dispatch with the
single-byte fallback. -/
def segNext (U : GoUnicode) (s : Bytes) (i : Nat) : Nat :=
  if s.length ≤ i then i
  else if allWSFrom U s i s.length then s.length
  else
    let e1 := ruleLettersWithPfx U s i
    if i < e1 then e1
    else
      let e2 := ruleLettersWithContraction U s i
      if i < e2 then e2
      else
        let e3 := ruleNumbers U s i
        if i < e3 then e3
        else
          let e4 := rulePunctRun U s i
          if i < e4 then e4
          else
            let e5 := ruleNewlines U s i
            if i < e5 then e5
            else
              let e6 := ruleWhitespace U s i
              if i < e6 then e6
              else i + 1

/-- A concrete `GoUnicode` for evaluating the segmenter theorems: the
decoder returns the replacement character with size 1 and all
categories are empty. -/
def unicodeW : GoUnicode :=
  { decodeRune := fun _ => (65533, 1),
    isL := fun _ => false,
    isN := fun _ => false,
    isSpace := fun _ => false,
    decode_pos := fun _ _ => Nat.le_refl 1 }

/-! ## Conversation data model (types.go)

`Role`, `Author`, tool configuration, system/developer content,
`Content`, `Message`, `Conversation`, `RenderConversationConfig`.
Go maps of tool namespaces are modelled as association lists; Go `nil`
pointers/maps are `Option`/the empty list.  `Content` carries its
variant's value, so the renderer's nil-pointer and unknown-variant
error paths are unrepresentable (they are not reachable from these
types in Go either). -/

/-- Message author role. -/
inductive Role
  | user
  | assistant
  | system
  | developer
  | tool
deriving DecidableEq, Repr

/-- Go `string(role)`. -/
def Role.toGoString : Role → String
  | .user => "user"
  | .assistant => "assistant"
  | .system => "system"
  | .developer => "developer"
  | .tool => "tool"

/-- Message author: role plus optional name (empty string = absent). -/
structure Author where
  role : Role
  name : String
deriving DecidableEq, Repr

/-- A tool description (`parameters` is the raw JSON string; it is
only read by the tools-section renderer, which the claims never
exercise). -/
structure ToolDescription where
  name : String
  description : String
  parameters : String
deriving DecidableEq, Repr

/-- A tool namespace. -/
structure ToolNamespaceConfig where
  name : String
  description : Option String
  tools : List ToolDescription
deriving DecidableEq, Repr

/-- Go `map[string]ToolNamespaceConfig`, as an association list. -/
abbrev ToolsMap := List (String × ToolNamespaceConfig)

/-- Channel configuration. -/
structure ChannelConfig where
  validChannels : List String
  channelRequired : Bool
deriving DecidableEq, Repr

/-- System metadata content (Go `SystemContent`; `ReasoningEffort` is
a Go string type, modelled as `String`). -/
structure SystemContent where
  modelIdentity : Option String
  reasoningEffort : Option String
  tools : ToolsMap
  conversationStartDate : Option String
  knowledgeCutoff : Option String
  channelConfig : Option ChannelConfig
deriving DecidableEq, Repr

/-- Developer metadata content. -/
structure DeveloperContent where
  instructions : Option String
  tools : ToolsMap
deriving DecidableEq, Repr

/-- A content item. -/
inductive Content
  | text (t : String)
  | system (sys : SystemContent)
  | developer (dev : DeveloperContent)
deriving DecidableEq, Repr

/-- A Harmony message. -/
structure Msg where
  author : Author
  recipient : String
  content : List Content
  channel : String
  contentType : String
deriving DecidableEq, Repr

/-- A conversation. -/
structure Conversation where
  messages : List Msg
deriving DecidableEq, Repr

/-- Render configuration (Go `RenderConversationConfig`). -/
structure RenderConversationConfig where
  autoDropAnalysis : Bool
deriving DecidableEq, Repr

/-! ## Renderer (encoding.go, render_system.go)

The renderer's BPE text encoding (`e.renderText`, i.e.
`bpe.EncodeIntoOrdinary`) and the tools-section text
(`e.writeToolsSection`) are the injected collaborators `encodeText`
and `toolsText` of `RenderEnc`; the claims proved against this model
hold for every instantiation, in particular the real ones. -/

/-- The renderer's collaborators. -/
structure RenderEnc where
  encodeText : String → List Nat
  toolsText : ToolsMap → String

/-- Models Go `strings.ToLower`, which maps each character to its
lower-case form; `Char.toLower` lowers the ASCII range, which agrees
with Go on the reasoning-effort values the renderer receives. -/
def goToLower (s : String) : String :=
  String.mk (s.data.map Char.toLower)

/-- Models Go `strings.HasPrefix`. -/
def goStartsWith (s pat : String) : Bool :=
  pat.data.isPrefixOf s.data

/-- Models Go `strings.TrimPrefix`. -/
def goTrimLead (s pat : String) : String :=
  if goStartsWith s pat then String.mk (s.data.drop pat.data.length) else s

/-- The `addSection` closure of `renderSystemContent`: a blank line
between sections. -/
def addSection (body sec : String) : String :=
  if 0 < body.length then body ++ "\n\n" ++ sec else body ++ sec

/-- The body text assembled by `renderSystemContent`
(render_system.go) before it is BPE-encoded.  `toolsText` stands for
`e.writeToolsSection`. -/
def systemBodyText (toolsText : ToolsMap → String) (sys : SystemContent)
    (hasFunctionTools : Bool) : String :=
  let midDefault := "You are ChatGPT, a large language model trained by OpenAI."
  let mid := match sys.modelIdentity with
    | some m => if m = "" then midDefault else m
    | none => midDefault
  let kc := match sys.knowledgeCutoff with
    | some k => if k = "" then "2024-06" else k
    | none => "2024-06"
  let s1 := mid ++ "\n" ++ "Knowledge cutoff: " ++ kc
    ++ (match sys.conversationStartDate with
        | some d => if d = "" then "" else "\n" ++ "Current date: " ++ d
        | none => "")
  let body := addSection "" s1
  let eff := match sys.reasoningEffort with
    | some e => goToLower e
    | none => "medium"
  let body := addSection body ("Reasoning: " ++ eff)
  let body := if 0 < sys.tools.length then addSection body (toolsText sys.tools)
    else body
  let chanCfg := match sys.channelConfig with
    | some c => c
    | none => ⟨["analysis", "commentary", "final"], true⟩
  if 0 < chanCfg.validChannels.length then
    addSection body
      ("# Valid channels: " ++ String.intercalate ", " chanCfg.validChannels
        ++ "."
        ++ (if chanCfg.channelRequired then
              " Channel must be included for every message." else "")
        ++ (if hasFunctionTools then
              "\nCalls to these tools must go to the commentary channel: \x27functions\x27."
            else ""))
  else body

/-- The body text assembled by `renderDeveloperContent`. -/
def devBodyText (toolsText : ToolsMap → String) (dev : DeveloperContent) :
    String :=
  let body := ""
  let body := match dev.instructions with
    | some ins => if ins = "" then body else body ++ "# Instructions\n\n" ++ ins
    | none => body
  if 0 < dev.tools.length then
    (if 0 < body.length then body ++ "\n\n" else body) ++ toolsText dev.tools
  else body

/-- Go `renderContentType` (encoding.go): special handling when the
content-type begins with the `<|constrain|>` literal. -/
def renderContentTypeToks (E : RenderEnc) (ct : String) : List Nat :=
  if goStartsWith ct "<|constrain|>" then
    E.encodeText " " ++ [tokConstrain]
      ++ (let rest := goTrimLead ct "<|constrain|>"
          if rest = "" then [] else E.encodeText rest)
  else E.encodeText (" " ++ ct)

/-- Tokens of one content item (the text / system / developer cases of
the body loop in `renderMessageInto`). -/
def renderContentToks (E : RenderEnc) (hasFnTools : Bool) : Content → List Nat
  | .text t => E.encodeText t
  | .system sys => E.encodeText (systemBodyText E.toolsText sys hasFnTools)
  | .developer dev => E.encodeText (devBodyText E.toolsText dev)

/-- Go `renderMessageInto` (encoding.go): `<|start|>`, header text,
optional channel and content-type, `<|message|>`, body, terminator.
The only reachable error is a tool message without a name. -/
def renderMessageTokens (E : RenderEnc) (hasFnTools : Bool) (m : Msg) :
    Option (List Nat) :=
  if m.author.role = .tool ∧ m.author.name = "" then none
  else
    let needsRecipient := m.recipient ≠ "" ∧ m.recipient ≠ "all"
    let headerText :=
      match m.author.role with
      | .tool =>
        if needsRecipient then m.author.name ++ " to=" ++ m.recipient
        else m.author.name
      | _ =>
        if m.author.name = "" ∧ ¬needsRecipient then m.author.role.toGoString
        else m.author.role.toGoString
          ++ (if m.author.name ≠ "" then ":" ++ m.author.name else "")
          ++ (if needsRecipient then " to=" ++ m.recipient else "")
    some ([tokStart] ++ E.encodeText headerText
      ++ (if m.channel ≠ "" then [tokChannel] ++ E.encodeText m.channel else [])
      ++ (if m.contentType ≠ "" then renderContentTypeToks E m.contentType else [])
      ++ [tokMessage]
      ++ (m.content.map (renderContentToks E hasFnTools)).flatten
      ++ [if m.author.role = .assistant ∧ needsRecipient then tokCall else tokEnd])

/-- The `lastAssistantFinal` value of `RenderConversation`'s pre-pass:
whether the last assistant message has channel `final`. -/
def lastAssistantFinal (msgs : List Msg) : Bool :=
  msgs.foldl
    (fun acc m => if m.author.role = .assistant then m.channel == "final" else acc)
    false

/-- The `firstFinal` value of the pre-pass: the index of the first
message (any role) with channel `final` (`-1` in Go is `none`). -/
def firstFinalPos (msgs : List Msg) : Option Nat :=
  msgs.findIdx? fun m => m.channel == "final"

/-- The `hasFunctionTools` value of the pre-pass: some message has a
developer content item whose tools map has a `functions` namespace
with at least one tool. -/
def hasFunctionTools (msgs : List Msg) : Bool :=
  msgs.any fun m => m.content.any fun c =>
    match c with
    | .developer d =>
      match d.tools.lookup "functions" with
      | some ns => 0 < ns.tools.length
      | none => false
    | _ => false

/-- The retention test of `RenderConversation`'s index loop, on an
`(index, message)` pair: Go skips the entry iff
`shouldDrop && firstFinal >= 0 && i < firstFinal && m.Channel == "analysis"`. -/
def keepEntry (shouldDrop : Bool) (ff : Option Nat) (p : Nat × Msg) : Bool :=
  !(shouldDrop
    && (match ff with | some f => decide (p.1 < f) | none => false)
    && (p.2.channel == "analysis"))

/-- The auto-drop flag: `true` when no configuration is supplied,
otherwise the configuration's flag. -/
def autoDropOf : Option RenderConversationConfig → Bool
  | none => true
  | some c => c.autoDropAnalysis

/-- The list of retained message indices (Go `renderIdx`). -/
def renderIndices (msgs : List Msg) (autoDrop : Bool) : List Nat :=
  let shouldDrop := autoDrop && lastAssistantFinal msgs
  let ff := firstFinalPos msgs
  (msgs.enum.filter (keepEntry shouldDrop ff)).map Prod.fst

/-- The sequential render of a list of messages (the loop over
`renderIdx` appending each message's tokens; an error aborts). -/
def renderAll (E : RenderEnc) (hasFnTools : Bool) :
    List Msg → Option (List (List Nat))
  | [] => some []
  | m :: ms =>
    (renderMessageTokens E hasFnTools m).bind fun ts =>
      (renderAll E hasFnTools ms).map (ts :: ·)

/-- Go `RenderConversation` (encoding.go): pre-pass, index filter,
then per-message renders concatenated in order. -/
def renderConversation (E : RenderEnc) (conv : Conversation)
    (cfg : Option RenderConversationConfig) : Option (List Nat) :=
  let msgs := conv.messages
  let shouldDrop := autoDropOf cfg && lastAssistantFinal msgs
  let ff := firstFinalPos msgs
  let kept := (msgs.enum.filter (keepEntry shouldDrop ff)).map Prod.snd
  (renderAll E (hasFunctionTools msgs) kept).map List.flatten

/-- Go `RenderConversationForTraining` (encoding.go): the base render,
with the trailing token replaced by `<|return|>` when the last message
is an assistant message in channel `final`. -/
def renderConversationForTraining (E : RenderEnc) (conv : Conversation)
    (cfg : Option RenderConversationConfig) : Option (List Nat) :=
  match conv.messages.getLast? with
  | none => some []
  | some last =>
    (renderConversation E conv cfg).map fun out =>
      if last.author.role = .assistant ∧ last.channel = "final" then
        if out.length = 0 then out else out.set (out.length - 1) tokReturn
      else out

/-- The retention predicate of the amended claim C1 (and of the code):
drop iff the channel is `analysis` and the index precedes the first
`final` message. -/
def dropPred (msgs : List Msg) (p : Nat × Msg) : Bool :=
  (p.2.channel == "analysis")
    && (match firstFinalPos msgs with
        | some f => decide (p.1 < f)
        | none => false)

/-- The index set asserted by claim C1 as frozen (modelled from the
claim's words, for comparison only): keep every index except the
assistant messages in channel `analysis` before the first `final`
message. -/
def specC1KeepIndices (msgs : List Msg) : List Nat :=
  (List.range msgs.length).filter fun i =>
    !((match msgs[i]? with
       | some m => decide (m.author.role = .assistant) && (m.channel == "analysis")
       | none => false)
      && (match firstFinalPos msgs with
          | some f => decide (i < f)
          | none => false))

/-- A concrete renderer instance: `encodeText` encodes each text as
its UTF-8 bytes, `toolsText` is the empty section. -/
def rencW : RenderEnc :=
  { encodeText := fun s => strBytes s, toolsText := fun _ => "" }

/-- A user message in channel `analysis` (no role restriction applies
to the code's drop test). -/
def msgUserAnalysis : Msg :=
  { author := ⟨.user, ""⟩, recipient := "", content := [.text "x"],
    channel := "analysis", contentType := "" }

/-- An assistant message in channel `final`. -/
def msgAssistantFinal : Msg :=
  { author := ⟨.assistant, ""⟩, recipient := "", content := [.text "y"],
    channel := "final", contentType := "" }

/-- The C1 counterexample conversation. -/
def msgsC1 : List Msg := [msgUserAnalysis, msgAssistantFinal]

/-- An assistant `final` message carrying a tool-call recipient. -/
def msgCallFinal : Msg :=
  { author := ⟨.assistant, ""⟩, recipient := "functions.x",
    content := [.text "hi"], channel := "final", contentType := "" }

/-- The C2 counterexample conversation. -/
def convC2 : Conversation := ⟨[msgCallFinal]⟩

/-- A plain assistant `final` message. -/
def msgT : Msg :=
  { author := ⟨.assistant, ""⟩, recipient := "", content := [.text "y"],
    channel := "final", contentType := "" }

/-- The C2 witness conversation. -/
def convT : Conversation := ⟨[msgT]⟩

/-! ## Header helpers (header_helpers.go)

Pure string parsing of decoded header text.  The Go code works on
UTF-8 strings with byte indices at rune boundaries; the model works on
the character list of a Lean `String`, which coincides for the ASCII
metacharacters these functions split on.  `strings.TrimSpace` and
`unicode.IsSpace` are modelled on the ASCII whitespace characters
(header text is ASCII). -/

/-- Substring occurrence test on character lists. -/
def listContains : List Char → List Char → Bool
  | s, pat =>
    if pat.isPrefixOf s then true
    else
      match s with
      | [] => false
      | _ :: t => listContains t pat

/-- Models Go `strings.Contains`. -/
def containsSubstr (s pat : String) : Bool :=
  listContains s.data pat.data

/-- Go `unicode.IsSpace` on the ASCII range. -/
def goIsSpaceChar (c : Char) : Bool :=
  c = ' ' ∨ c = '\t' ∨ c = '\n' ∨ c = '\r' ∨ c = '\x0b' ∨ c = '\x0c'

/-- Both-ends whitespace trim on a character list. -/
def trimSpaceList (l : List Char) : List Char :=
  ((l.dropWhile goIsSpaceChar).reverse.dropWhile goIsSpaceChar).reverse

/-- Models Go `strings.TrimSpace`. -/
def goTrimSpace (s : String) : String :=
  String.mk (trimSpaceList s.data)

/-- One pass of Go `strings.ReplaceAll`: replace every non-overlapping
occurrence of `pat` left to right.  Each step consumes at least one
character of `s`, so fuel `s.length` completes the scan. -/
def replaceAllList (pat rep : List Char) : List Char → Nat → List Char
  | s, 0 => s
  | s, fuel + 1 =>
    if pat.isPrefixOf s then rep ++ replaceAllList pat rep (s.drop pat.length) fuel
    else
      match s with
      | [] => []
      | c :: t => c :: replaceAllList pat rep t fuel

/-- Models Go `strings.ReplaceAll`. -/
def goReplaceAll (s pat rep : String) : String :=
  String.mk (replaceAllList pat.data rep.data s.data s.data.length)

/-- Go `normalizeHeader`: ensure the `<|channel|>` and `<|constrain|>`
literals are preceded by a space. -/
def normalizeHeader (s : String) : String :=
  let s := if containsSubstr s "<|channel|>" then
      goTrimSpace (goReplaceAll s "<|channel|>" " <|channel|>") else s
  if containsSubstr s "<|constrain|>" then
    goTrimSpace (goReplaceAll s "<|constrain|>" " <|constrain|>") else s

/-- Go `splitLeadingToken`: the text up to the first space or `<`, and
the trimmed remainder. -/
def splitLeadingToken (s : String) : String × String :=
  let stop := s.data.findIdx fun ch => ch = ' ' ∨ ch = '<'
  let roleToken := String.mk (s.data.take stop)
  let rem := if stop < s.data.length then goTrimSpace (String.mk (s.data.drop stop))
    else ""
  (roleToken, rem)

/-- Go `nextValueToken`: the first token that is neither `to=...` nor a
special marker. -/
def nextValueToken (input : String) : String :=
  let input := goTrimSpace input
  if input = "" then ""
  else
    let e := input.data.findIdx fun ch => ch = ' ' ∨ ch = '<'
    let token := String.mk (input.data.take e)
    if goStartsWith token "to=" ∨ goStartsWith token "<|" then "" else token

/-- Go `detectRoleAndAuthor`: infer the role from the leading token and
recover the author name. -/
def detectRoleAndAuthor (roleToken remainder : String) : Role × String :=
  let detected :=
    if roleToken = "user" ∨ goStartsWith roleToken "user:" then Role.user
    else if roleToken = "assistant" ∨ goStartsWith roleToken "assistant:" then
      Role.assistant
    else if roleToken = "system" ∨ goStartsWith roleToken "system:" then
      Role.system
    else if roleToken = "developer" ∨ goStartsWith roleToken "developer:" then
      Role.developer
    else Role.tool
  let name :=
    if detected = Role.tool then
      let n :=
        if goStartsWith roleToken "tool:" then
          String.mk (roleToken.data.drop ("tool:".data.length))
        else if roleToken = "tool" then nextValueToken remainder
        else if roleToken ≠ "" then roleToken
        else ""
      if n = "" then nextValueToken remainder else n
    else
      let aliasPfx := detected.toGoString ++ ":"
      if goStartsWith roleToken aliasPfx then
        String.mk (roleToken.data.drop aliasPfx.data.length)
      else ""
  (detected, name)

/-- First index of an occurrence of `pat` in `s`
(Go `strings.Index`). -/
def findSubstrIdx : List Char → List Char → Option Nat
  | s, pat =>
    if pat.isPrefixOf s then some 0
    else
      match s with
      | [] => none
      | _ :: t => (findSubstrIdx t pat).map (· + 1)

/-- Go `extractChannel`: the text between `<|channel|>` and the next
space (or the end). -/
def extractChannel (s : String) : String :=
  match findSubstrIdx s.data ("<|channel|>".data) with
  | some idx =>
    let after := s.data.drop (idx + "<|channel|>".data.length)
    String.mk (after.take (after.findIdx (fun ch => ch = ' ')))
  | none => ""

/-- Go `extractRecipient`: the text after ` to=` up to the next space
or `<`. -/
def extractRecipient (s : String) : String :=
  match findSubstrIdx s.data (" to=".data) with
  | some idx =>
    let after := s.data.drop (idx + " to=".data.length)
    String.mk (after.take (after.findIdx (fun ch => ch = ' ' ∨ ch = '<')))
  | none => ""

/-- The role/alias-stripping step at the top of Go `scrubContentType`
(first matching role wins). -/
def stripRoleAlias (ss : String) : String :=
  let step := fun (ss : String) (r : String) =>
    let ss := String.mk (ss.data.drop r.data.length)
    if goStartsWith ss ":" then
      let ss2 := String.mk (ss.data.drop 1)
      match ss2.data.findIdx? (fun ch => ch = ' ') with
      | some sp => String.mk (ss2.data.drop sp)
      | none => ""
    else ss
  if goStartsWith ss "assistant" then step ss "assistant"
  else if goStartsWith ss "user" then step ss "user"
  else if goStartsWith ss "system" then step ss "system"
  else if goStartsWith ss "developer" then step ss "developer"
  else ss

/-- The recipient-stripping step of Go `scrubContentType`. -/
def stripRecipient (ss : String) : String :=
  if goStartsWith ss "to=" then
    let after := ss.data.drop ("to=".data.length)
    match after.findIdx? (fun ch => ch = ' ') with
    | none => ""
    | some sp => goTrimSpace (String.mk (after.drop sp))
  else
    match findSubstrIdx ss.data (" to=".data) with
    | some idx =>
      let before := ss.data.take idx
      let after := ss.data.drop (idx + " to=".data.length)
      match after.findIdx? (fun ch => ch = ' ') with
      | none => goTrimSpace (String.mk before)
      | some sp => goTrimSpace (String.mk (before ++ after.drop sp))
    | none => ss

/-- The channel-annotation-stripping loop of Go `scrubContentType`.
Each iteration removes an occurrence of the 11-character literal, so
the string shrinks and fuel `length + 1` completes the loop. -/
def stripChannelLoop (ss : List Char) : Nat → List Char
  | 0 => ss
  | fuel + 1 =>
    match findSubstrIdx ss ("<|channel|>".data) with
    | none => ss
    | some idx =>
      let after := ss.drop (idx + "<|channel|>".data.length)
      let ss2 :=
        match after.findIdx? (fun ch => ch = ' ') with
        | none => trimSpaceList (ss.take idx)
        | some sp => trimSpaceList (ss.take idx ++ after.drop sp)
      stripChannelLoop ss2 fuel

/-- Go `scrubContentType`: remove role/alias prefix, recipient and
channel annotations from the remainder; what survives (trimmed) is the
content type.  (The `roleToken` parameter is unused in the Go body as
well.) -/
def scrubContentType (roleToken remainder : String) : String :=
  let ss := remainder
  let ss := stripRoleAlias ss
  let ss := stripRecipient ss
  let ss := String.mk (stripChannelLoop ss.data (ss.data.length + 1))
  goTrimSpace ss

/-! ## Streaming parser (render_system.go)

The parser's BPE collaborators are a `ParserEnv`: `rankBytes` models
the decoder store (`tokenStore.AppendInto`) and `decodeUTF8Str` models
`enc.bpe.DecodeUTF8` on a token list (`none` = decode error).  The
encoding constructed by `LoadEncoding` installs the Harmony specials,
so the single-token decode path (`DecodeBytesInto`) falls back to the
concrete `harmonySpecialDec` table. -/

/-- Parser states. -/
inductive StreamState
  | expectStart
  | header
  | content
deriving DecidableEq, Repr

/-- The parser's decoding collaborators. -/
structure ParserEnv where
  rankBytes : Nat → Option Bytes
  decodeUTF8Str : List Nat → Option String

/-- The single-token decode of `Process` in `Content` state:
`DecodeBytesInto` on one id — the rank store first, then the Harmony
specials table. -/
def decodeTokBytes (P : ParserEnv) (t : Nat) : Option Bytes :=
  match P.rankBytes t with
  | some bs => some bs
  | none => harmonySpecialDec t

/-- Go `parsedHeader`. -/
structure ParsedHeader where
  author : Author
  recipient : String
  channel : String
  contentType : String
deriving DecidableEq, Repr

/-- Go `StreamParser` (its mutable fields). -/
structure StreamParser where
  nextRole : Option Role
  state : StreamState
  tokens : List Nat
  messages : List Msg
  headerToks : List Nat
  contentToks : List Nat
  lastDeltaBytes : Bytes
deriving DecidableEq, Repr

/-- Go `NewStreamParser`: with a role hint the parser starts in
`Header`, otherwise in `ExpectStart`. -/
def newStreamParser (role : Option Role) : StreamParser :=
  { nextRole := role,
    state := match role with | some _ => .header | none => .expectStart,
    tokens := [], messages := [], headerToks := [], contentToks := [],
    lastDeltaBytes := [] }

/-- Go `StreamParser.parseHeaderFromTokens`: decode the header tokens,
normalize, split, detect role/name, apply the role hint, and extract
channel, recipient and content type. -/
def parseHeaderFromTokens (P : ParserEnv) (nextRole : Option Role)
    (header : List Nat) : Option ParsedHeader :=
  match P.decodeUTF8Str header with
  | none => none
  | some s0 =>
    let s := normalizeHeader s0
    let rt := splitLeadingToken s
    let dn := detectRoleAndAuthor rt.1 rt.2
    let author0 : Author := ⟨dn.1, dn.2⟩
    let author :=
      match nextRole with
      | some r =>
        let a : Author := ⟨r, author0.name⟩
        if a.role = .tool ∧ a.name = "" then ⟨a.role, dn.2⟩ else a
      | none => author0
    some { author := author, recipient := extractRecipient s,
           channel := extractChannel s,
           contentType := scrubContentType rt.1 rt.2 }

/-- Replacing the content of the last accumulated message
(`p.messages[idx].Content = ...` in `finalizeMessage`). -/
def setLastContent (msgs : List Msg) (cs : List Content) : List Msg :=
  msgs.dropLast ++
    (match msgs.getLast? with
     | some m => [{ m with content := cs }]
     | none => [])

/-- Go `StreamParser.finalizeMessage`: decode the content buffer into
a single text content item on the last message and reset the buffers;
a no-op when no message has been started. -/
def finalizeMessage (P : ParserEnv) (p : StreamParser) :
    Option StreamParser :=
  if p.messages.length = 0 then some p
  else
    match P.decodeUTF8Str p.contentToks with
    | none => none
    | some text =>
      some { p with messages := setLastContent p.messages [.text text],
                    headerToks := [], contentToks := [] }

/-- Go `StreamParser.Process`: one incoming token. -/
def processTok (P : ParserEnv) (p : StreamParser) (t : Nat) :
    Option StreamParser :=
  let p := { p with tokens := p.tokens ++ [t] }
  match p.state with
  | .expectStart =>
    if t = tokStart then some { p with headerToks := [], state := .header }
    else none
  | .header =>
    if t = tokStart then some p
    else if t = tokMessage then
      match parseHeaderFromTokens P p.nextRole p.headerToks with
      | none => none
      | some hdr =>
        some { p with nextRole := none, contentToks := [],
                      messages := p.messages ++
                        [{ author := hdr.author, recipient := hdr.recipient,
                           content := [], channel := hdr.channel,
                           contentType := hdr.contentType }],
                      state := .content }
    else some { p with headerToks := p.headerToks ++ [t] }
  | .content =>
    if t ∈ stopAll then
      (finalizeMessage P p).map fun q => { q with state := .expectStart }
    else
      match decodeTokBytes P t with
      | none => none
      | some bs =>
        some { p with contentToks := p.contentToks ++ [t],
                      lastDeltaBytes := bs }

/-- Go `StreamParser.ProcessEOS`: finalize when in `Content`,
otherwise a no-op. -/
def processEOS (P : ParserEnv) (p : StreamParser) : Option StreamParser :=
  if p.state = .content then finalizeMessage P p else some p

/-- A concrete `ParserEnv` for evaluating the parser theorems: no rank
table, and a UTF-8 decode that reads each token as a character. -/
def envW : ParserEnv :=
  { rankBytes := fun _ => none,
    decodeUTF8Str := fun toks => some (String.mk (toks.map Char.ofNat)) }

/-- Token list carrying a string character-by-character (matching
`envW.decodeUTF8Str`). -/
def toksOf (s : String) : List Nat :=
  s.data.map Char.toNat

/-- A parser constructed without a role hint. -/
def pNoHint : StreamParser := newStreamParser none

/-- A parser in `Content` state with one started message. -/
def pContent : StreamParser :=
  { nextRole := none, state := .content, tokens := [tokStart, tokMessage],
    messages := [{ author := ⟨.assistant, ""⟩, recipient := "",
                   content := [], channel := "", contentType := "" }],
    headerToks := [], contentToks := [], lastDeltaBytes := [] }

/-! ## Theorems -/

/-! ### Helper lemmas about the working-array operations -/

theorem length_setRank (l : List Part) (j r : Nat) :
    (setRank l j r).length = l.length := by
  induction l generalizing j with
  | nil => rfl
  | cons p ps ih =>
    cases j with
    | zero => rfl
    | succ j => simp [setRank, ih]

theorem map_start_setRank (l : List Part) (j r : Nat) :
    (setRank l j r).map Part.start = l.map Part.start := by
  induction l generalizing j with
  | nil => rfl
  | cons p ps ih =>
    cases j with
    | zero => rfl
    | succ j => simp [setRank, ih]

theorem getElem?_setRank (l : List Part) (j r k : Nat) :
    (setRank l j r)[k]? =
      if k = j then l[k]?.map (fun p => ⟨p.start, r⟩) else l[k]? := by
  induction l generalizing j k with
  | nil => simp [setRank]
  | cons p ps ih =>
    cases j with
    | zero =>
      cases k with
      | zero => simp [setRank]
      | succ k => simp [setRank]
    | succ j =>
      cases k with
      | zero => simp [setRank]
      | succ k =>
        simp only [setRank, List.getElem?_cons_succ, ih]
        by_cases h : k = j <;> simp [h]

theorem eraseAt_sublist {α : Type} (l : List α) (j : Nat) :
    List.Sublist (eraseAt l j) l := by
  induction l generalizing j with
  | nil => simp [eraseAt]
  | cons p ps ih =>
    cases j with
    | zero => exact (List.sublist_cons_self p ps)
    | succ j => exact List.Sublist.cons₂ p (ih j)

theorem length_eraseAt {α : Type} (l : List α) (j : Nat) (h : j < l.length) :
    (eraseAt l j).length = l.length - 1 := by
  induction l generalizing j with
  | nil => simp at h
  | cons p ps ih =>
    cases j with
    | zero => simp [eraseAt]
    | succ j =>
      have hj : j < ps.length := by simpa using h
      cases ps with
      | nil => simp at hj
      | cons q qs => simp [eraseAt, ih _ hj]

theorem getElem?_eraseAt {α : Type} (l : List α) (j k : Nat) :
    (eraseAt l j)[k]? = if k < j then l[k]? else l[k + 1]? := by
  induction l generalizing j k with
  | nil => simp [eraseAt]
  | cons p ps ih =>
    cases j with
    | zero => simp [eraseAt]
    | succ j =>
      cases k with
      | zero => simp [eraseAt]
      | succ k =>
        simp only [eraseAt, List.getElem?_cons_succ, ih]
        by_cases h : k < j <;> simp [h, Nat.succ_lt_succ_iff]

theorem map_eraseAt {α β : Type} (l : List α) (f : α → β) (j : Nat) :
    (eraseAt l j).map f = eraseAt (l.map f) j := by
  induction l generalizing j with
  | nil => rfl
  | cons p ps ih =>
    cases j with
    | zero => rfl
    | succ j => simp [eraseAt, ih]

theorem head?_eraseAt_succ {α : Type} (l : List α) (j : Nat) :
    (eraseAt l (j + 1)).head? = l.head? := by
  cases l with
  | nil => rfl
  | cons p ps => rfl

theorem getPart_start (parts : List Part) (j : Nat) :
    (getPart parts j).start = (parts.map Part.start).getD j 0 := by
  unfold getPart
  cases h : parts[j]? with
  | none =>
    have hlen : parts.length ≤ j := by
      by_contra hc
      simp [List.getElem?_eq_getElem (Nat.lt_of_not_le hc)] at h
    simp [List.getD, h, List.getElem?_map]
  | some p =>
    simp [List.getD, h, List.getElem?_map]

theorem getLast?_eraseAt {α : Type} (l : List α) (j : Nat) (h : j + 1 < l.length) :
    (eraseAt l j).getLast? = l.getLast? := by
  have hlen : (eraseAt l j).length = l.length - 1 :=
    length_eraseAt l j (Nat.lt_of_succ_lt h)
  rw [List.getLast?_eq_getElem?, List.getLast?_eq_getElem?, hlen,
    getElem?_eraseAt]
  have h2 : ¬ (l.length - 1 - 1 < j) := by omega
  rw [if_neg h2]
  congr 1
  omega

theorem mem_pairsMap {β : Type} {g : Nat → Nat → β} {l : List Nat} {x : β}
    (h : x ∈ pairsMap g l) :
    ∃ j a b, l[j]? = some a ∧ l[j + 1]? = some b ∧ x = g a b := by
  induction l with
  | nil => simp [pairsMap] at h
  | cons a t ih =>
    cases t with
    | nil => simp [pairsMap] at h
    | cons b rest =>
      simp only [pairsMap, List.mem_cons] at h
      rcases h with h | h
      · exact ⟨0, a, b, by simp, by simp, h⟩
      · obtain ⟨j, a', b', h1, h2, h3⟩ := ih h
        exact ⟨j + 1, a', b', by simpa using h1, by simpa using h2, h3⟩

theorem pairsMap_map_getD {β : Type} (g : Nat → Nat → β) (l : List Nat) :
    (List.range (l.length - 1)).map
        (fun w => g (l.getD w 0) (l.getD (w + 1) 0)) = pairsMap g l := by
  induction l with
  | nil => simp [pairsMap]
  | cons a t ih =>
    cases t with
    | nil => simp [pairsMap]
    | cons b rest =>
      simp only [pairsMap]
      have hlen : (a :: b :: rest).length - 1 = (b :: rest).length - 1 + 1 := by
        simp
      rw [hlen, List.range_succ_eq_map, List.map_cons, List.map_map]
      refine congrArg₂ (· :: ·) ?_ ?_
      · simp [List.getD]
      · rw [← ih]
        apply List.map_congr_left
        intro w _
        simp [List.getD, Function.comp]

/-! ### Byte-span algebra -/

theorem sub_append (piece : Bytes) {a b c : Nat} (hab : a ≤ b) (hbc : b ≤ c) :
    sub piece a b ++ sub piece b c = sub piece a c := by
  unfold sub
  have hca : c - a = (b - a) + (c - b) := by omega
  rw [hca, List.take_add]
  congr 1
  have : (piece.drop a).drop (b - a) = piece.drop b := by
    rw [List.drop_drop]
    congr 1
    omega
  rw [this]

theorem sub_self (piece : Bytes) (a : Nat) : sub piece a a = [] := by
  simp [sub]

theorem sub_zero_length (piece : Bytes) : sub piece 0 piece.length = piece := by
  simp [sub]

theorem sub_singleton (piece : Bytes) {j : Nat} {b : Nat}
    (h : piece[j]? = some b) : sub piece j (j + 1) = [b] := by
  unfold sub
  have hj : j < piece.length := by
    by_contra hc
    simp [List.getElem?_eq_none (Nat.le_of_not_lt hc)] at h
  have hdrop : piece.drop j = piece[j] :: piece.drop (j + 1) :=
    List.drop_eq_getElem_cons hj
  have hb : piece[j] = b := by
    have := List.getElem?_eq_getElem hj
    rw [h] at this
    simpa using this.symm
  rw [hdrop, hb]
  simp

theorem mem_sub {piece : Bytes} {a c b : Nat} (h : b ∈ sub piece a c) :
    b ∈ piece := by
  unfold sub at h
  exact List.mem_of_mem_drop (List.mem_of_mem_take h)

theorem chain_le_head_getLast {l : List Nat} {a z : Nat}
    (hc : l.Chain' (· ≤ ·)) (ha : l.head? = some a) (hz : l.getLast? = some z) :
    a ≤ z := by
  induction l generalizing a with
  | nil => simp at ha
  | cons x t ih =>
    obtain rfl : a = x := by simpa using ha.symm
    cases t with
    | nil =>
      obtain rfl : a = z := by simpa using hz
      exact Nat.le_refl a
    | cons y t' =>
      have hxy : a ≤ y := (List.chain'_cons.mp hc).1
      have hrest := (List.chain'_cons.mp hc).2
      have hyz : y ≤ z := ih hrest (by simp) (by simpa using hz)
      exact Nat.le_trans hxy hyz

theorem flatten_pairsMap_sub (piece : Bytes) :
    ∀ (l : List Nat) (a z : Nat), l.Chain' (· ≤ ·) → l.head? = some a →
      l.getLast? = some z →
      (pairsMap (sub piece) l).flatten = sub piece a z := by
  intro l
  induction l with
  | nil => intro a z _ ha _; simp at ha
  | cons x t ih =>
    intro a z hc ha hz
    obtain rfl : a = x := by simpa using ha.symm
    cases t with
    | nil =>
      obtain rfl : a = z := by simpa using hz
      simp [pairsMap, sub_self]
    | cons y t' =>
      have hxy : a ≤ y := (List.chain'_cons.mp hc).1
      have hrest := (List.chain'_cons.mp hc).2
      have hz' : (y :: t').getLast? = some z := by simpa using hz
      have hyz : y ≤ z := chain_le_head_getLast hrest (by simp) hz'
      simp only [pairsMap, List.flatten_cons]
      rw [ih y z hrest (by simp) hz', sub_append piece hxy hyz]

/-! ### Decoding lemmas -/

theorem decodeBytes_append (B : CoreBPE) (xs ys : List Nat) :
    decodeBytes B (xs ++ ys)
      = (decodeBytes B xs).bind fun bx => (decodeBytes B ys).map (bx ++ ·) := by
  induction xs with
  | nil => simp [decodeBytes]
  | cons t ts ih =>
    rw [List.cons_append]
    show (decodeTok B t).bind _ = _
    rw [decodeBytes]
    cases decodeTok B t with
    | none => simp
    | some bs =>
      simp only [Option.some_bind]
      rw [ih]
      cases decodeBytes B ts with
      | none => simp
      | some bx =>
        cases decodeBytes B ys with
        | none => simp
        | some byy => simp [List.append_assoc]

theorem decodeBytes_spans (B : CoreBPE) (spans : List Bytes)
    (hdom : ∀ sp ∈ spans, B.encFn sp ≠ none)
    (H2 : ∀ p r, B.encFn p = some r → B.decFn r = some p) :
    decodeBytes B (spans.map fun sp => (B.encFn sp).getD 0)
      = some spans.flatten := by
  induction spans with
  | nil => simp [decodeBytes]
  | cons sp sps ih =>
    rw [List.map_cons, decodeBytes]
    have hsp : B.encFn sp ≠ none := hdom sp (by simp)
    cases henc : B.encFn sp with
    | none => exact absurd henc hsp
    | some r =>
      have hdec : B.decFn r = some sp := H2 sp r henc
      have hone : decodeTok B r = some sp := by
        simp [decodeTok, hdec]
      simp only [henc, Option.getD_some]
      rw [hone]
      have ihh := ih (fun q hq => hdom q (by simp [hq]))
      rw [ihh]
      simp

theorem pairsMap_comp {β γ : Type} (g : Nat → Nat → β) (h : β → γ)
    (l : List Nat) :
    pairsMap (fun a b => h (g a b)) l = (pairsMap g l).map h := by
  induction l with
  | nil => simp [pairsMap]
  | cons a t ih =>
    cases t with
    | nil => simp [pairsMap]
    | cons b rest => simp [pairsMap, ih]

theorem length_initParts (B : CoreBPE) (piece : Bytes)
    (h : 1 ≤ piece.length) :
    (initParts B piece).length = piece.length + 1 := by
  unfold initParts
  simp
  omega

theorem map_start_initParts (B : CoreBPE) (piece : Bytes)
    (h : 1 ≤ piece.length) :
    (initParts B piece).map Part.start = List.range (piece.length + 1) := by
  unfold initParts
  rw [List.map_append, List.map_map]
  have h1 : List.range (piece.length + 1)
      = List.range piece.length ++ [piece.length] := by
    simpa using List.range_succ (n := piece.length)
  have h2 : List.range piece.length
      = List.range (piece.length - 1) ++ [piece.length - 1] := by
    have : piece.length = (piece.length - 1) + 1 := by omega
    rw [this]
    simpa using List.range_succ (n := piece.length - 1)
  rw [h1, h2]
  have h3 : (List.range (piece.length - 1)).map
      ((fun p => Part.start p) ∘ fun i =>
        ({ start := i,
           rank := match B.encFn (sub piece i (i + 2)) with
                   | some r => r
                   | none => maxRank } : Part))
      = List.range (piece.length - 1) := by
    rw [show ∀ f, List.map f (List.range (piece.length - 1))
          = List.map f (List.range (piece.length - 1)) from fun _ => rfl]
    apply List.map_id''
    intro x
    rfl
  rw [h3]
  simp

theorem initParts_getElem?_lt (B : CoreBPE) (piece : Bytes) {j : Nat}
    (hj : j < piece.length - 1) :
    (initParts B piece)[j]? =
      some { start := j,
             rank := match B.encFn (sub piece j (j + 2)) with
                     | some r => r
                     | none => maxRank } := by
  unfold initParts
  rw [List.getElem?_append_left (by simpa using hj)]
  rw [List.getElem?_map]
  simp [List.getElem?_range hj]

theorem initParts_getElem?_s1 (B : CoreBPE) (piece : Bytes) :
    (initParts B piece)[piece.length - 1]? =
      some ⟨piece.length - 1, maxRank⟩ := by
  unfold initParts
  rw [List.getElem?_append_right (by simp)]
  have h0 : piece.length - 1 -
      (List.map (fun i =>
        ({ start := i,
           rank := match B.encFn (sub piece i (i + 2)) with
                   | some r => r
                   | none => maxRank } : Part))
        (List.range (piece.length - 1))).length = 0 := by
    simp
  rw [h0]
  rfl

theorem initParts_getElem?_s2 (B : CoreBPE) (piece : Bytes)
    (h : 1 ≤ piece.length) :
    (initParts B piece)[piece.length]? = some ⟨piece.length, maxRank⟩ := by
  unfold initParts
  rw [List.getElem?_append_right (by simp)]
  have h0 : piece.length -
      (List.map (fun i =>
        ({ start := i,
           rank := match B.encFn (sub piece i (i + 2)) with
                   | some r => r
                   | none => maxRank } : Part))
        (List.range (piece.length - 1))).length = 1 := by
    simp
    omega
  rw [h0]
  rfl

/-- The start stored at index `j` of a parts array whose starts list is
explicitly known. -/
theorem start_of_getElem? {parts : List Part} {j : Nat} {p : Part}
    (h : parts[j]? = some p) :
    (parts.map Part.start)[j]? = some p.start := by
  simp [List.getElem?_map, h]

theorem initParts_inv (B : CoreBPE) (piece : Bytes)
    (h2 : 2 ≤ piece.length)
    (Hp : ∀ b ∈ piece, B.encFn [b] ≠ none) :
    MergeInv B piece (initParts B piece) := by
  have h1 : 1 ≤ piece.length := by omega
  have hlen := length_initParts B piece h1
  have hstarts := map_start_initParts B piece h1
  have hstartj : ∀ (j : Nat) (p : Part),
      (initParts B piece)[j]? = some p → p.start = j := by
    intro j p hp
    have := start_of_getElem? hp
    rw [hstarts] at this
    have hj : j < piece.length + 1 := by
      by_contra hc
      rw [List.getElem?_eq_none (by simpa using Nat.le_of_not_lt hc)] at this
      simp at this
    rw [List.getElem?_range hj] at this
    simpa using this.symm
  have hidx : ∀ (j : Nat) (p : Part),
      (initParts B piece)[j]? = some p → j < piece.length + 1 := by
    intro j p hp
    by_contra hc
    rw [List.getElem?_eq_none (by omega : (initParts B piece).length ≤ j)] at hp
    simp at hp
  refine ⟨?_, ?_, ?_, ?_, ?_, ?_, ?_⟩
  · omega
  · rw [hstarts]
    have : piece.length + 1 = (piece.length) + 1 := rfl
    rw [List.range_succ_eq_map]
    simp
  · rw [hstarts]
    rw [show List.range (piece.length + 1)
        = List.range piece.length ++ [piece.length] by
      simpa using List.range_succ (n := piece.length)]
    simp
  · rw [hstarts]
    exact List.pairwise_lt_range _
  · -- spanB: consecutive spans are single bytes of the piece
    intro j p q hp hq
    have hsp : p.start = j := hstartj j p hp
    have hsq : q.start = j + 1 := hstartj (j + 1) q hq
    have hjlt : j + 1 < piece.length + 1 := hidx (j + 1) q hq
    have hjp : j < piece.length := by omega
    obtain ⟨b, hb⟩ : ∃ b, piece[j]? = some b := by
      simp [List.getElem?_eq_getElem hjp]
    rw [hsp, hsq, sub_singleton piece hb]
    exact Hp b (List.getElem?_mem hb)
  · -- tripleC: a non-sentinel cached rank witnesses its pair span
    intro j p c hp hc hrank
    have hsp : p.start = j := hstartj j p hp
    have hsc : c.start = j + 2 := hstartj (j + 2) c hc
    have hjlt : j + 2 < piece.length + 1 := hidx (j + 2) c hc
    have hjm : j < piece.length - 1 := by omega
    rw [initParts_getElem?_lt B piece hjm] at hp
    have hpval := Option.some.inj hp
    rw [hsp, hsc]
    cases henc : B.encFn (sub piece j (j + 2)) with
    | none =>
      exfalso
      apply hrank
      rw [← hpval]
      simp [henc]
    | some r => simp [henc]
  · -- lastD: the two sentinel entries keep rank maxRank
    intro j p hp hge
    have hjlt : j < piece.length + 1 := hidx j p hp
    rw [hlen] at hge
    have : j = piece.length - 1 ∨ j = piece.length := by omega
    rcases this with h | h
    · subst h
      rw [initParts_getElem?_s1 B piece] at hp
      have := Option.some.inj hp
      rw [← this]
    · subst h
      rw [initParts_getElem?_s2 B piece h1] at hp
      have := Option.some.inj hp
      rw [← this]

theorem findMinGo_good (parts : List Part) :
    ∀ (l : List Part) (j : Nat) (best : Option (Nat × Nat)),
      l = parts.drop j →
      (∀ ri, best = some ri → GoodMin parts ri) →
      ∀ ri, findMinGo l j best = some ri → GoodMin parts ri := by
  intro l
  induction l with
  | nil =>
    intro j best _ hbest ri hret
    exact hbest ri (by simpa [findMinGo] using hret)
  | cons p t ih =>
    intro j best hdrop hbest ri hret
    cases t with
    | nil =>
      exact hbest ri (by simpa [findMinGo] using hret)
    | cons q rest =>
      have hpj : parts[j]? = some p := by
        have := List.getElem?_drop parts j 0
        rw [← hdrop] at this
        simpa using this.symm
      have hlen : j + 2 ≤ parts.length := by
        have : (parts.drop j).length = parts.length - j := by simp
        rw [← hdrop] at this
        simp at this
        omega
      have hdrop' : (q :: rest) = parts.drop (j + 1) := by
        have := List.tail_drop parts j
        rw [← hdrop] at this
        exact this
      simp only [findMinGo] at hret
      refine ih (j + 1) _ hdrop' ?_ ri hret
      intro ri' hri'
      cases best with
      | none =>
        have hri2 : (if p.rank < maxRank then some (p.rank, j) else none)
            = some ri' := hri'
        by_cases hr : p.rank < maxRank
        · rw [if_pos hr] at hri2
          have := Option.some.inj hri2
          subst this
          exact ⟨hr, by omega, p, hpj, rfl⟩
        · rw [if_neg hr] at hri2
          simp at hri2
      | some b =>
        obtain ⟨br, bi⟩ := b
        have hri2 : (if p.rank < br then some (p.rank, j) else some (br, bi))
            = some ri' := hri'
        by_cases hr : p.rank < br
        · rw [if_pos hr] at hri2
          have := Option.some.inj hri2
          subst this
          have hb := hbest (br, bi) rfl
          exact ⟨Nat.lt_trans hr hb.1, by omega, p, hpj, rfl⟩
        · rw [if_neg hr] at hri2
          exact hbest ri' hri2

theorem findMin_good {parts : List Part} {ri : Nat × Nat}
    (h : findMin parts = some ri) : GoodMin parts ri := by
  refine findMinGo_good parts parts 0 none (by simp) ?_ ri h
  intro ri' hri'
  simp at hri'

theorem getPart_eq_of_getElem? {parts : List Part} {k : Nat} {p : Part}
    (h : parts[k]? = some p) : getPart parts k = p := by
  unfold getPart
  simp [List.getD, h]

theorem getRank_congr (B : CoreBPE) (piece : Bytes) {pa pb : List Part}
    (hlen : pa.length = pb.length)
    (hst : pa.map Part.start = pb.map Part.start) (k : Nat) :
    getRank B piece pa k = getRank B piece pb k := by
  unfold getRank
  rw [hlen, getPart_start, getPart_start, getPart_start, getPart_start, hst]

theorem getRank_ne_max {B : CoreBPE} {piece : Bytes} {parts : List Part}
    {k : Nat} (h : getRank B piece parts k ≠ maxRank) :
    k + 3 < parts.length ∧
      B.encFn (sub piece (getPart parts k).start
        (getPart parts (k + 3)).start) ≠ none := by
  unfold getRank at h
  by_cases hk : k + 3 < parts.length
  · rw [if_pos hk] at h
    refine ⟨hk, ?_⟩
    cases henc : B.encFn (sub piece (getPart parts k).start
        (getPart parts (k + 3)).start) with
    | none => rw [henc] at h; exact absurd rfl h
    | some r => simp [henc]
  · rw [if_neg hk] at h
    exact absurd rfl h

/-- One iteration of the merge loop preserves the invariant. -/
theorem mergeStep_inv (B : CoreBPE) (piece : Bytes) (parts : List Part)
    (r i : Nat) (inv : MergeInv B piece parts)
    (hfm : findMin parts = some (r, i)) :
    MergeInv B piece
      (eraseAt
        (setRank
          (if 0 < i then
            setRank parts (i - 1) (getRank B piece parts (i - 1))
          else parts) i
          (getRank B piece
            (if 0 < i then
              setRank parts (i - 1) (getRank B piece parts (i - 1))
            else parts) i))
        (i + 1)) := by
  obtain ⟨hr, hi1, p0, hp0, hp0r⟩ := findMin_good hfm
  set parts1 := (if 0 < i then
      setRank parts (i - 1) (getRank B piece parts (i - 1)) else parts)
    with hparts1
  have len1 : parts1.length = parts.length := by
    rw [hparts1]; by_cases h : 0 < i <;> simp [h, length_setRank]
  have starts1 : parts1.map Part.start = parts.map Part.start := by
    rw [hparts1]; by_cases h : 0 < i <;> simp [h, map_start_setRank]
  set g2 := getRank B piece parts1 i with hg2
  have hg2eq : g2 = getRank B piece parts i := getRank_congr B piece len1 starts1 i
  set parts2 := setRank parts1 i g2 with hparts2
  have len2 : parts2.length = parts.length := by
    rw [hparts2, length_setRank, len1]
  have starts2 : parts2.map Part.start = parts.map Part.start := by
    rw [hparts2, map_start_setRank, starts1]
  set parts3 := eraseAt parts2 (i + 1) with hparts3
  -- index bound: the selected pair is never one of the two sentinels
  have hi2 : i + 2 < parts.length := by
    by_contra hc
    have := inv.lastD i p0 hp0 (Nat.le_of_not_lt hc)
    rw [this] at hp0r
    omega
  have len3 : parts3.length = parts.length - 1 := by
    rw [hparts3, length_eraseAt _ _ (by omega : i + 1 < parts2.length), len2]
  have starts3 : parts3.map Part.start
      = eraseAt (parts.map Part.start) (i + 1) := by
    rw [hparts3, map_eraseAt, starts2]
  -- entry bookkeeping
  have h2k : ∀ k, k ≠ i → ¬(0 < i ∧ k = i - 1) → parts2[k]? = parts[k]? := by
    intro k hk1 hk2
    rw [hparts2, getElem?_setRank, if_neg hk1, hparts1]
    by_cases h : 0 < i
    · rw [if_pos h, getElem?_setRank, if_neg (fun hEq => hk2 ⟨h, hEq⟩)]
    · rw [if_neg h]
  have h2i : parts2[i]? = parts[i]?.map (fun p => ⟨p.start, g2⟩) := by
    rw [hparts2, getElem?_setRank, if_pos rfl, hparts1]
    by_cases h : 0 < i
    · rw [if_pos h, getElem?_setRank, if_neg (by omega : ¬ i = i - 1)]
    · rw [if_neg h]
  have h2im : 0 < i → parts2[i - 1]? =
      parts[i - 1]?.map (fun p => ⟨p.start, getRank B piece parts (i - 1)⟩) := by
    intro h
    rw [hparts2, getElem?_setRank, if_neg (by omega : ¬ i - 1 = i), hparts1,
      if_pos h, getElem?_setRank, if_pos rfl]
  have h3k : ∀ k, parts3[k]? = if k < i + 1 then parts2[k]? else parts2[k + 1]? := by
    intro k
    rw [hparts3, getElem?_eraseAt]
  -- start values survive every rank update
  have hold : ∀ (k : Nat) (p' : Part), parts2[k]? = some p' →
      ∃ q0, parts[k]? = some q0 ∧ q0.start = p'.start := by
    intro k p' h
    have h1 : (parts.map Part.start)[k]? = some p'.start := by
      rw [← starts2]
      exact start_of_getElem? h
    rw [List.getElem?_map] at h1
    cases hk : parts[k]? with
    | none => rw [hk] at h1; simp at h1
    | some q0 =>
      rw [hk] at h1
      exact ⟨q0, rfl, by simpa using h1⟩
  refine ⟨?_, ?_, ?_, ?_, ?_, ?_, ?_⟩
  · omega
  · rw [starts3, head?_eraseAt_succ]
    exact inv.head_start
  · rw [starts3, getLast?_eraseAt _ _ (by simpa using hi2)]
    exact inv.last_start
  · rw [starts3]
    exact inv.sorted.sublist (eraseAt_sublist _ _)
  · -- spanB
    intro j p q hp hq
    rw [h3k] at hp hq
    by_cases hj1 : j + 1 < i + 1
    · rw [if_pos (by omega)] at hp
      rw [if_pos hj1] at hq
      obtain ⟨p1, hp1, hps⟩ := hold j p hp
      obtain ⟨q1, hq1, hqs⟩ := hold (j + 1) q hq
      rw [← hps, ← hqs]
      exact inv.spanB j p1 q1 hp1 hq1
    · by_cases hj2 : j < i + 1
      · -- j = i: the freshly merged span, witnessed by the old cached rank
        have hji : j = i := by omega
        subst hji
        rw [if_pos hj2] at hp
        rw [if_neg (by omega)] at hq
        obtain ⟨p1, hp1, hps⟩ := hold j p hp
        obtain ⟨q1, hq1, hqs⟩ := hold (j + 2) q hq
        have hpp0 : p1 = p0 := by
          rw [hp1] at hp0
          exact Option.some.inj hp0
        rw [← hps, ← hqs]
        refine inv.tripleC j p1 q1 hp1 hq1 ?_
        rw [hpp0, hp0r]
        omega
      · -- j > i: old pair shifted by one
        rw [if_neg hj2] at hp
        rw [if_neg (by omega)] at hq
        obtain ⟨p1, hp1, hps⟩ := hold (j + 1) p hp
        obtain ⟨q1, hq1, hqs⟩ := hold (j + 2) q hq
        rw [← hps, ← hqs]
        exact inv.spanB (j + 1) p1 q1 hp1 hq1
  · -- tripleC
    intro j p c hp hc hrank
    rw [h3k] at hp hc
    by_cases hj1 : j + 2 < i + 1
    · -- strictly left of the merge: everything untouched
      rw [if_pos (by omega)] at hp
      rw [if_pos hj1] at hc
      have hpold : parts2[j]? = parts[j]? :=
        h2k j (by omega) (by omega)
      rw [hpold] at hp
      obtain ⟨c1, hc1, hcs⟩ := hold (j + 2) c hc
      rw [← hcs]
      exact inv.tripleC j p c1 hp hc1 hrank
    · by_cases hj2 : j < i + 1
      · -- j = i - 1 or j = i: the re-ranked entries
        by_cases hji : j = i
        · subst hji
          rw [if_pos hj2] at hp
          rw [if_neg (by omega)] at hc
          rw [h2i] at hp
          cases hpi : parts[j]? with
          | none => rw [hpi] at hp; simp at hp
          | some pold =>
            rw [hpi] at hp
            have hpval := Option.some.inj hp
            have hrg : g2 ≠ maxRank := by
              intro hEq
              apply hrank
              rw [← hpval, hEq]
            rw [hg2eq] at hrg
            obtain ⟨hb3, henc⟩ := getRank_ne_max hrg
            obtain ⟨c1, hc1, hcs⟩ := hold (j + 3) c hc
            have hps : p.start = pold.start := by rw [← hpval]
            have hgp : getPart parts j = pold := getPart_eq_of_getElem? hpi
            have hgc : getPart parts (j + 3) = c1 := getPart_eq_of_getElem? hc1
            rw [hps, ← hgp, ← hcs, ← hgc]
            exact henc
        · -- j = i - 1
          have hipos : 0 < i := by omega
          have hieq : j = i - 1 := by omega
          rw [if_pos hj2] at hp
          rw [if_neg (by omega)] at hc
          have hp' : parts2[i - 1]? = some p := by rw [← hieq]; exact hp
          rw [h2im hipos] at hp'
          cases hpi : parts[i - 1]? with
          | none => rw [hpi] at hp'; simp at hp'
          | some pold =>
            rw [hpi] at hp'
            have hpval := Option.some.inj hp'
            have hrg : getRank B piece parts (i - 1) ≠ maxRank := by
              intro hEq
              apply hrank
              rw [← hpval, hEq]
            obtain ⟨hb3, henc⟩ := getRank_ne_max hrg
            obtain ⟨c1, hc1, hcs⟩ := hold (j + 3) c (by
              have h213 : j + 2 + 1 = j + 3 := by omega
              rw [← h213]
              exact hc)
            have hps : p.start = pold.start := by rw [← hpval]
            have hgp : getPart parts (i - 1) = pold := getPart_eq_of_getElem? hpi
            have hgc : getPart parts (i - 1 + 3) = c1 := by
              apply getPart_eq_of_getElem?
              have h13 : i - 1 + 3 = j + 3 := by omega
              rw [h13]
              exact hc1
            rw [hps, ← hgp, ← hcs, ← hgc]
            exact henc
      · -- j > i: old triple shifted by one
        rw [if_neg hj2] at hp
        rw [if_neg (by omega)] at hc
        have hpold : parts2[j + 1]? = parts[j + 1]? :=
          h2k (j + 1) (by omega) (by omega)
        rw [hpold] at hp
        obtain ⟨c1, hc1, hcs⟩ := hold (j + 3) c (by
          have : j + 2 + 1 = j + 3 := by omega
          rw [← this]
          exact hc)
        rw [← hcs]
        have : j + 1 + 2 = j + 3 := by omega
        refine inv.tripleC (j + 1) p c1 hp ?_ hrank
        rw [this]
        exact hc1
  · -- lastD
    intro j p hp hge
    rw [len3] at hge
    rw [h3k] at hp
    by_cases hj : j < i + 1
    · -- only possible at j = i, where the fresh rank is the sentinel
      have hji : j = i := by omega
      subst hji
      rw [if_pos hj, h2i] at hp
      cases hpi : parts[j]? with
      | none => rw [hpi] at hp; simp at hp
      | some pold =>
        rw [hpi] at hp
        have hpval := Option.some.inj hp
        have hg2max : g2 = maxRank := by
          rw [hg2eq]
          unfold getRank
          rw [if_neg (by omega : ¬ j + 3 < parts.length)]
        rw [← hpval, hg2max]
    · rw [if_neg hj] at hp
      have hpold : parts2[j + 1]? = parts[j + 1]? :=
        h2k (j + 1) (by omega) (by omega)
      rw [hpold] at hp
      exact inv.lastD (j + 1) p hp (by omega)

theorem mergeLoop_inv (B : CoreBPE) (piece : Bytes) :
    ∀ (fuel : Nat) (parts : List Part), MergeInv B piece parts →
      MergeInv B piece (mergeLoop B piece parts fuel) := by
  intro fuel
  induction fuel with
  | zero => intro parts inv; exact inv
  | succ fuel ih =>
    intro parts inv
    rw [mergeLoop]
    cases hfm : findMin parts with
    | none => exact inv
    | some ri =>
      obtain ⟨r, i⟩ := ri
      exact ih _ (mergeStep_inv B piece parts r i inv hfm)

theorem bytePairMerge_inv (B : CoreBPE) (piece : Bytes)
    (h2 : 2 ≤ piece.length)
    (Hp : ∀ b ∈ piece, B.encFn [b] ≠ none) :
    MergeInv B piece (bytePairMerge B piece) := by
  unfold bytePairMerge
  exact mergeLoop_inv B piece _ _ (initParts_inv B piece h2 Hp)

/-- Decoding what `bytePairEncode` emits recovers the piece, provided
all single bytes of the piece are in the vocabulary and the decoder
store inverts the forward map. -/
theorem bytePairEncode_decode (B : CoreBPE) (piece : Bytes)
    (h1 : 1 ≤ piece.length)
    (Hp : ∀ b ∈ piece, B.encFn [b] ≠ none)
    (H2 : ∀ p r, B.encFn p = some r → B.decFn r = some p) :
    decodeBytes B (bytePairEncode B piece) = some piece := by
  unfold bytePairEncode
  by_cases hlen : piece.length = 1
  · rw [if_pos hlen]
    obtain ⟨b, hb⟩ : ∃ b, piece = [b] := List.length_eq_one.mp hlen
    subst hb
    have hdom : B.encFn [b] ≠ none := Hp b (by simp)
    cases henc : B.encFn [b] with
    | none => exact absurd henc hdom
    | some r =>
      have hdec : B.decFn r = some [b] := H2 [b] r henc
      simp [decodeBytes, decodeTok, henc, hdec]
  · rw [if_neg hlen]
    have h2 : 2 ≤ piece.length := by omega
    have inv := bytePairMerge_inv B piece h2 Hp
    set parts := bytePairMerge B piece with hparts
    -- the emitted tokens are the consecutive spans, looked up in `enc`
    have htoks : ((List.range (parts.length - 1)).map fun w =>
          (B.encFn (sub piece (getPart parts w).start
            (getPart parts (w + 1)).start)).getD 0)
        = (pairsMap (sub piece) (parts.map Part.start)).map
            (fun sp => (B.encFn sp).getD 0) := by
      rw [← pairsMap_comp (sub piece) (fun sp => (B.encFn sp).getD 0)]
      rw [← pairsMap_map_getD
        (fun a b => (B.encFn (sub piece a b)).getD 0) (parts.map Part.start)]
      have hll : (parts.map Part.start).length = parts.length := by simp
      rw [hll]
      apply List.map_congr_left
      intro w _
      rw [getPart_start, getPart_start]
    rw [htoks]
    have hdom : ∀ sp ∈ pairsMap (sub piece) (parts.map Part.start),
        B.encFn sp ≠ none := by
      intro sp hsp
      obtain ⟨j, a, b, hja, hjb, hspan⟩ := mem_pairsMap hsp
      rw [List.getElem?_map] at hja hjb
      cases hpj : parts[j]? with
      | none => rw [hpj] at hja; simp at hja
      | some p =>
        cases hqj : parts[j + 1]? with
        | none => rw [hqj] at hjb; simp at hjb
        | some q =>
          rw [hpj] at hja
          rw [hqj] at hjb
          have ha : p.start = a := by simpa using hja
          have hb : q.start = b := by simpa using hjb
          rw [hspan, ← ha, ← hb]
          exact inv.spanB j p q hpj hqj
    rw [decodeBytes_spans B _ hdom H2]
    congr 1
    have hchain : (parts.map Part.start).Chain' (· ≤ ·) :=
      List.Chain'.imp (fun _ _ hab => Nat.le_of_lt hab) inv.sorted.chain'
    rw [flatten_pairsMap_sub piece (parts.map Part.start) 0 piece.length
      hchain inv.head_start inv.last_start]
    exact sub_zero_length piece

/-- Decoding what the ordinary encode loop emits from position `i`
recovers the rest of the text. -/
theorem encodeLoop_decode (B : CoreBPE) (text : Bytes)
    (H1 : ∀ b ∈ text, B.encFn [b] ≠ none)
    (H2 : ∀ p r, B.encFn p = some r → B.decFn r = some p) :
    ∀ (fuel i : Nat), text.length - i ≤ fuel →
      decodeBytes B (encodeLoop B text i fuel) = some (text.drop i) := by
  intro fuel
  induction fuel with
  | zero =>
    intro i hfi
    have : text.length ≤ i := by omega
    rw [encodeLoop, List.drop_eq_nil_of_le this]
    simp [decodeBytes]
  | succ fuel ih =>
    intro i hfi
    rw [encodeLoop]
    by_cases hi : i < text.length
    · rw [if_pos hi]
      set e := if B.seg text i ≤ i then i + 1 else B.seg text i with he
      have hei : i + 1 ≤ e := by
        rw [he]
        by_cases h : B.seg text i ≤ i
        · simp [h]
        · simp [h]; omega
      set piece := sub text i e with hpiece
      have hsplit : piece ++ text.drop e = text.drop i := by
        rw [hpiece]
        unfold sub
        by_cases hel : e ≤ text.length
        · have hd : (text.drop i).drop (e - i) = text.drop e := by
            rw [List.drop_drop]
            congr 1
            omega
          rw [← hd]
          exact List.take_append_drop (e - i) (text.drop i)
        · have h1 : text.drop e = [] := List.drop_eq_nil_of_le (by omega)
          have h2 : (text.drop i).take (e - i) = text.drop i := by
            apply List.take_of_length_le
            simp
            omega
          rw [h1, h2, List.append_nil]
      have hplen : 1 ≤ piece.length := by
        rw [hpiece]
        unfold sub
        simp
        omega
      have hpmem : ∀ b ∈ piece, B.encFn [b] ≠ none := by
        intro b hb
        exact H1 b (mem_sub hb)
      have hpiece_dec :
          decodeBytes B (match B.encFn piece with
            | some id => [id]
            | none => bytePairEncode B piece) = some piece := by
        cases henc : B.encFn piece with
        | some id =>
          have hdec : B.decFn id = some piece := H2 piece id henc
          simp [decodeBytes, decodeTok, hdec]
        | none => exact bytePairEncode_decode B piece hplen hpmem H2
      rw [decodeBytes_append, hpiece_dec]
      have hrest : decodeBytes B (encodeLoop B text e fuel)
          = some (text.drop e) := ih e (by omega)
      rw [hrest]
      simp only [Option.some_bind, Option.map_some']
      rw [hsplit]
    · rw [if_neg hi]
      rw [List.drop_eq_nil_of_le (by omega)]
      simp [decodeBytes]

/-- Claim C5: for every text whose bytes are all in the loaded
vocabulary's single-byte table and whose decoder store inverts the
forward map (both hold for the loaded O200k vocabulary, which maps
every byte value to a rank), decoding the ordinary (no-specials) BPE
encoding of the text yields exactly the original text:
`decodeBytes (encodeOrdinary text) = text`.  At the byte level this
holds for arbitrary byte strings, so in particular for every valid
UTF-8 text with no embedded special literal, which is the claim's
premise. -/
theorem claim_C5 (B : CoreBPE) (text : Bytes)
    (H1 : ∀ b ∈ text, B.encFn [b] ≠ none)
    (H2 : ∀ p r, B.encFn p = some r → B.decFn r = some p) :
    decodeBytes B (encodeOrdinary B text) = some text := by
  unfold encodeOrdinary
  have h := encodeLoop_decode B text H1 H2 text.length 0 (by omega)
  simpa using h

/-- Witness for C5: the round trip evaluated on the concrete text
`"hi!"` (bytes `[104, 105, 33]`) over the concrete vocabulary `bpeW`,
whose encoding runs the byte-pair merge (`[104, 105]` merges to rank
500). -/
theorem claim_C5_witness :
    decodeBytes bpeW (encodeOrdinary bpeW [104, 105, 33])
      = some [104, 105, 33] := by
  refine claim_C5 bpeW [104, 105, 33] (by decide) ?_
  intro p r h
  cases p with
  | nil => simp [bpeW, encW] at h
  | cons a t =>
    cases t with
    | nil =>
      by_cases ha : a < 256
      · have hra : r = a := by
          have h2 := h
          simp [bpeW, encW, ha] at h2
          omega
        subst hra
        simp [bpeW, decW, ha]
        omega
      · simp [bpeW, encW, ha] at h
    | cons b t2 =>
      cases t2 with
      | nil =>
        by_cases hab : a = 104 ∧ b = 105
        · have hr : r = 500 := by
            have h2 := h
            simp [bpeW, encW, hab] at h2
            omega
          subst hr
          simp [bpeW, decW, hab.1, hab.2]
        · simp [bpeW, encW, hab] at h
      | cons c t3 => simp [bpeW, encW] at h

/-- Sanity check: the merge path actually fires on the witness input
(the two-byte pair is merged into rank 500). -/
theorem encodeOrdinary_bpeW_eval :
    encodeOrdinary bpeW [104, 105, 33] = [500, 33] := by decide

/-- Claim C6 (amended): for every input byte string and every index
strictly inside it, `segNext` returns an index strictly greater than
its input index.  (The original claim asserted this for every index;
at `i ≥ length s` — including the empty string — the Go code returns
`i` unchanged, see the counterexample.) -/
theorem claim_C6 (U : GoUnicode) (s : Bytes) (i : Nat)
    (h : i < s.length) : i < segNext U s i := by
  unfold segNext
  dsimp only
  split_ifs <;> omega

/-- Counterexample for C6 as frozen: on the empty input at index 0 the
segmenter returns 0, which is not strictly greater than 0. -/
theorem claim_C6_counterexample :
    segNext unicodeW [] 0 = 0 ∧ ¬ (0 < segNext unicodeW [] 0) := by
  constructor
  · rfl
  · intro h
    simp [segNext] at h

/-- Witness for C6 (amended): on the one-byte input `[33]` at index 0
the hypothesis holds and the segmenter advances. -/
theorem claim_C6_witness : 0 < segNext unicodeW [33] 0 :=
  claim_C6 unicodeW [33] 0 (by decide)

theorem renderAll_append (E : RenderEnc) (h : Bool) (l1 : List Msg) (m : Msg) :
    renderAll E h (l1 ++ [m])
      = (renderAll E h l1).bind fun xs =>
          (renderMessageTokens E h m).map fun ts => xs ++ [ts] := by
  induction l1 with
  | nil =>
    simp only [List.nil_append, renderAll]
    cases renderMessageTokens E h m <;> simp [renderAll]
  | cons a t ih =>
    simp only [List.cons_append, renderAll]
    erw [ih]
    cases renderMessageTokens E h a with
    | none => simp
    | some ts =>
      simp only [Option.some_bind]
      cases renderAll E h t with
      | none => simp
      | some xs =>
        cases renderMessageTokens E h m <;> simp

theorem filter_getLast? {α : Type} {l : List α} {q : α → Bool} {a : α}
    (h : l.getLast? = some a) (hq : q a = true) :
    (l.filter q).getLast? = some a := by
  have hl : l.dropLast ++ [a] = l := List.dropLast_append_getLast? a h
  rw [← hl, List.filter_append]
  have : List.filter q [a] = [a] := by simp [hq]
  rw [this]
  exact List.getLast?_append_of_ne_nil _ (by simp)

theorem enum_getLast? {α : Type} {l : List α} {a : α}
    (h : l.getLast? = some a) :
    l.enum.getLast? = some (l.length - 1, a) := by
  have hne : l ≠ [] := by
    intro hnil
    rw [hnil] at h
    simp at h
  have hlen : 0 < l.length := List.length_pos.mpr hne
  rw [List.getLast?_eq_getElem?] at h ⊢
  rw [List.getElem?_enum]
  rw [List.enum_length]
  rw [h]
  rfl

theorem set_last_eq {α : Type} (l : List α) (x : α) (h : l ≠ []) :
    l.set (l.length - 1) x = l.dropLast ++ [x] := by
  induction l with
  | nil => exact absurd rfl h
  | cons a t ih =>
    cases t with
    | nil => rfl
    | cons b t2 =>
      have hlen : (a :: b :: t2).length - 1 = ((b :: t2).length - 1) + 1 := by
        simp
      rw [hlen]
      simp only [List.set_cons_succ, List.dropLast_cons₂, List.cons_append]
      rw [ih (by simp)]

/-- The shape of a rendered assistant message: non-empty, ending in its
terminator (`<|call|>` with a tool-call recipient, `<|end|>` otherwise). -/
theorem renderMessageTokens_assistant_last (E : RenderEnc) (h : Bool)
    (m : Msg) (hrole : m.author.role = .assistant) :
    ∃ ts, renderMessageTokens E h m = some ts ∧ ts ≠ [] ∧
      ts.getLast? = some
        (if m.recipient ≠ "" ∧ m.recipient ≠ "all" then tokCall else tokEnd) := by
  unfold renderMessageTokens
  rw [if_neg (by rw [hrole]; rintro ⟨h1, -⟩; cases h1)]
  refine ⟨_, rfl, ?_, ?_⟩
  · simp
  · rw [hrole]
    have hterm : ∀ l1 : List Nat, ∀ x : Nat, (l1 ++ [x]).getLast? = some x := by
      intro l1 x
      exact List.getLast?_concat l1
    simp only [List.append_assoc]
    rw [List.getLast?_append_of_ne_nil _ (by simp)]
    rw [List.getLast?_append_of_ne_nil _ (by simp)]
    rw [List.getLast?_append_of_ne_nil _ (by simp)]
    rw [List.getLast?_append_of_ne_nil _ (by simp)]
    rw [List.getLast?_append_of_ne_nil _ (by simp)]
    rw [List.getLast?_append_of_ne_nil _ (by simp)]
    simp

/-- Claim C1 (amended): with auto-drop enabled and the last assistant
message in channel `final`, the retained indices are exactly those
whose message is NOT in channel `analysis` before the first `final`
message — with no role restriction: the code drops any-role `analysis`
messages, not only assistant ones (see the counterexample) — and
`RenderConversation` is the in-order concatenation of the renders of
exactly the retained messages. -/
theorem claim_C1 (E : RenderEnc) (msgs : List Msg)
    (cfg : Option RenderConversationConfig)
    (h1 : autoDropOf cfg = true) (h2 : lastAssistantFinal msgs = true) :
    renderIndices msgs (autoDropOf cfg)
      = ((msgs.enum.filter fun p => !dropPred msgs p).map Prod.fst)
    ∧ renderConversation E ⟨msgs⟩ cfg
      = (renderAll E (hasFunctionTools msgs)
          ((msgs.enum.filter fun p => !dropPred msgs p).map Prod.snd)).map
          List.flatten := by
  have hcongr : ∀ p ∈ msgs.enum,
      keepEntry (autoDropOf cfg && lastAssistantFinal msgs)
        (firstFinalPos msgs) p = !dropPred msgs p := by
    intro p _
    rw [h1, h2]
    unfold keepEntry dropPred
    cases hff : firstFinalPos msgs with
    | none => simp
    | some f =>
      simp only [Bool.true_and]
      rw [Bool.and_comm]
  constructor
  · unfold renderIndices
    dsimp only
    rw [List.filter_congr hcongr]
  · unfold renderConversation
    dsimp only
    rw [List.filter_congr hcongr]

/-- Counterexample for C1 as frozen: in a conversation whose first
message is a USER message in channel `analysis` followed by an
assistant `final` message, the code drops index 0, while the claim
says only assistant messages in `analysis` are omitted (so it keeps
`[0, 1]`). -/
theorem claim_C1_counterexample :
    lastAssistantFinal msgsC1 = true
    ∧ renderIndices msgsC1 true = [1]
    ∧ specC1KeepIndices msgsC1 = [0, 1] := by decide

/-- Witness for C1 (amended), at a concrete conversation and `cfg = none`. -/
theorem claim_C1_witness :
    renderIndices msgsC1 (autoDropOf none) = [1] := by
  have h := (claim_C1 rencW msgsC1 none rfl (by decide)).1
  rw [h]
  decide

/-- Claim C2 (amended): for every conversation and configuration, the
training render differs from the base render by at most its last
token; it differs exactly when the last message has role `assistant`
and channel `final`, in which case the trailing terminator — `<|end|>`
(200007), or `<|call|>` (200012) when that message carries a tool-call
recipient — is replaced by `<|return|>` (200002), with all preceding
tokens unchanged. -/
theorem claim_C2 (E : RenderEnc) (conv : Conversation)
    (cfg : Option RenderConversationConfig) :
    (conv.messages = [] →
      renderConversationForTraining E conv cfg
        = renderConversation E conv cfg)
    ∧ (∀ last, conv.messages.getLast? = some last →
        ¬(last.author.role = .assistant ∧ last.channel = "final") →
        renderConversationForTraining E conv cfg
          = renderConversation E conv cfg)
    ∧ (∀ last out, conv.messages.getLast? = some last →
        last.author.role = .assistant → last.channel = "final" →
        renderConversation E conv cfg = some out →
        out ≠ []
        ∧ out.getLast? = some
            (if last.recipient ≠ "" ∧ last.recipient ≠ "all" then tokCall
             else tokEnd)
        ∧ renderConversationForTraining E conv cfg
            = some (out.dropLast ++ [tokReturn])
        ∧ out.dropLast ++ [tokReturn] ≠ out) := by
  refine ⟨?_, ?_, ?_⟩
  · intro hnil
    unfold renderConversationForTraining
    rw [show conv.messages.getLast? = none by rw [hnil]; rfl]
    unfold renderConversation
    rw [hnil]
    rfl
  · intro last hlast hnot
    unfold renderConversationForTraining
    rw [hlast]
    cases hrc : renderConversation E conv cfg with
    | none => rfl
    | some out =>
      simp only [Option.map_some']
      rw [if_neg hnot]
  · intro last out hlast hrole hch hout
    -- the last message is always retained and ends with its terminator
    have hne : conv.messages ≠ [] := by
      intro hnil
      rw [hnil] at hlast
      simp at hlast
    obtain ⟨ts, hts, htsne, htslast⟩ :=
      renderMessageTokens_assistant_last E (hasFunctionTools conv.messages)
        last hrole
    -- the filtered, mapped message list ends with `last`
    have henum : conv.messages.enum.getLast? =
        some (conv.messages.length - 1, last) := enum_getLast? hlast
    have hkeep : keepEntry
        (autoDropOf cfg && lastAssistantFinal conv.messages)
        (firstFinalPos conv.messages)
        (conv.messages.length - 1, last) = true := by
      unfold keepEntry
      have : (last.channel == "analysis") = false := by
        rw [hch]
        decide
      simp [this]
    have hfillast := filter_getLast? henum hkeep
    set kept := (conv.messages.enum.filter
      (keepEntry (autoDropOf cfg && lastAssistantFinal conv.messages)
        (firstFinalPos conv.messages))).map Prod.snd with hkept
    have hkeptlast : kept.getLast? = some last := by
      rw [hkept, List.getLast?_map, hfillast]
      rfl
    have hkeptsplit : kept.dropLast ++ [last] = kept :=
      List.dropLast_append_getLast? last hkeptlast
    -- unfold the conversation render over that split
    have hout2 : (renderAll E (hasFunctionTools conv.messages) kept).map
        List.flatten = some out := by
      rw [← hout]
      rfl
    obtain ⟨bodies, hbodies, hflat⟩ :
        ∃ bodies, renderAll E (hasFunctionTools conv.messages) kept
            = some bodies ∧ bodies.flatten = out := by
      cases hra : renderAll E (hasFunctionTools conv.messages) kept with
      | none => rw [hra] at hout2; simp at hout2
      | some bodies =>
        rw [hra] at hout2
        exact ⟨bodies, rfl, by simpa using hout2⟩
    have hsplit := renderAll_append E (hasFunctionTools conv.messages)
      kept.dropLast last
    rw [hkeptsplit, hbodies, hts] at hsplit
    obtain ⟨xs, hxs, hbody_eq⟩ :
        ∃ xs, renderAll E (hasFunctionTools conv.messages) kept.dropLast
            = some xs ∧ bodies = xs ++ [ts] := by
      cases hrd : renderAll E (hasFunctionTools conv.messages)
          kept.dropLast with
      | none => rw [hrd] at hsplit; simp at hsplit
      | some xs =>
        rw [hrd] at hsplit
        simp only [Option.some_bind, Option.map_some'] at hsplit
        exact ⟨xs, rfl, Option.some.inj hsplit⟩
    have houtshape : out = xs.flatten ++ ts := by
      rw [← hflat, hbody_eq]
      simp
    have houtlast : out.getLast? = ts.getLast? := by
      rw [houtshape]
      exact List.getLast?_append_of_ne_nil _ htsne
    have houtne : out ≠ [] := by
      rw [houtshape]
      intro hcon
      exact htsne (List.append_eq_nil.mp hcon).2
    refine ⟨houtne, by rw [houtlast, htslast], ?_, ?_⟩
    · unfold renderConversationForTraining
      rw [hlast, hout]
      simp only [Option.map_some']
      have hlp : 0 < out.length := List.length_pos.mpr houtne
      rw [if_pos ⟨hrole, hch⟩, if_neg (by omega : ¬ out.length = 0)]
      rw [set_last_eq out tokReturn houtne]
    · intro hcon
      have h1 : (out.dropLast ++ [tokReturn]).getLast? = some tokReturn :=
        List.getLast?_concat _
      rw [hcon, houtlast, htslast] at h1
      have := Option.some.inj h1
      by_cases hrec : last.recipient ≠ "" ∧ last.recipient ≠ "all"
      · rw [if_pos hrec] at this
        exact absurd this (by decide)
      · rw [if_neg hrec] at this
        exact absurd this (by decide)

/-- Counterexample for C2 as frozen: when the last (assistant, `final`)
message carries a tool-call recipient, the base render ends in
`<|call|>` (200012), not `<|end|>` (200007), and the training render
replaces that `<|call|>` by `<|return|>` — not the `<|end|>` → 
`<|return|>` substitution the claim asserts. -/
theorem claim_C2_counterexample :
    (renderConversation rencW convC2 none).map (fun out => out.getLast?)
      = some (some tokCall)
    ∧ (renderConversationForTraining rencW convC2 none).map
        (fun out => out.getLast?) = some (some tokReturn)
    ∧ tokCall ≠ tokEnd := by decide

/-- Witness for C2 (amended), evaluated on a one-message assistant
`final` conversation over the concrete renderer `rencW`. -/
theorem claim_C2_witness :
    renderConversationForTraining rencW convT none
      = some [200006, 97, 115, 115, 105, 115, 116, 97, 110, 116, 200005,
          102, 105, 110, 97, 108, 200008, 121, 200002] := by
  have h := (claim_C2 rencW convT none).2.2 msgT
    [200006, 97, 115, 115, 105, 115, 116, 97, 110, 116, 200005,
      102, 105, 110, 97, 108, 200008, 121, 200007]
    (by decide) rfl rfl (by decide)
  rw [h.2.2.1]
  decide

/-- Claim C9: rendering with no configuration equals rendering with
auto-drop enabled — the auto-drop option defaults to `true` when no
configuration is supplied. -/
theorem claim_C9 (E : RenderEnc) (conv : Conversation) :
    renderConversation E conv none
      = renderConversation E conv (some ⟨true⟩) := rfl

/-- Claim C7: the stop-token set is exactly
`{200002, 200007, 200012}` (`<|return|>`, `<|end|>`, `<|call|>`) and
the assistant-action stop set is exactly `{200002, 200012}`
(`<|return|>`, `<|call|>`).  `StopTokens` and
`StopTokensForAssistantActions` return these sets in Go map-iteration
order, so the sets are compared. -/
theorem claim_C7 :
    stopAll.toFinset = ({200002, 200007, 200012} : Finset Nat)
    ∧ stopAssistant.toFinset = ({200002, 200012} : Finset Nat) := by decide

theorem length_append_pos_left (a b : String) (h : 0 < a.length) :
    0 < (a ++ b).length := by
  rw [String.length_append]
  omega

/-- Claim C8: with no model identity, knowledge cutoff, start date,
reasoning effort, tools, or channel configuration, and no function
tools declared in the conversation, the system body text (before BPE
encoding) is exactly the default block; and for every set reasoning
effort the reasoning line is `Reasoning: ` followed by the effort
lowercased.  Quantified over `toolsText` (the tools-section renderer),
which is never invoked here because the tools map is empty. -/
theorem claim_C8 :
    (∀ toolsText : ToolsMap → String,
      systemBodyText toolsText ⟨none, none, [], none, none, none⟩ false
        = "You are ChatGPT, a large language model trained by OpenAI.\nKnowledge cutoff: 2024-06\n\nReasoning: medium\n\n# Valid channels: analysis, commentary, final. Channel must be included for every message.")
    ∧ (∀ (toolsText : ToolsMap → String) (e : String),
      systemBodyText toolsText ⟨none, some e, [], none, none, none⟩ false
        = "You are ChatGPT, a large language model trained by OpenAI.\nKnowledge cutoff: 2024-06\n\nReasoning: "
          ++ goToLower e
          ++ "\n\n# Valid channels: analysis, commentary, final. Channel must be included for every message.") := by
  constructor
  · intro toolsText
    rfl
  · intro toolsText e
    unfold systemBodyText addSection
    dsimp only
    rw [if_neg (by decide : ¬ 0 < ("" : String).length)]
    rw [if_pos (by decide : 0 < ("" ++ ("You are ChatGPT, a large language model trained by OpenAI." ++ "\n" ++ "Knowledge cutoff: " ++ "2024-06" ++ "")).length)]
    rw [if_pos (length_append_pos_left _ _ (length_append_pos_left _ _ (by decide)))]
    rw [show ("You are ChatGPT, a large language model trained by OpenAI.\nKnowledge cutoff: 2024-06\n\nReasoning: " : String)
        = "" ++ ("You are ChatGPT, a large language model trained by OpenAI." ++ "\n" ++ "Knowledge cutoff: " ++ "2024-06" ++ "") ++ "\n\n" ++ "Reasoning: " from by decide]
    rw [show ("\n\n# Valid channels: analysis, commentary, final. Channel must be included for every message." : String)
        = "\n\n" ++ ("# Valid channels: " ++ ", ".intercalate ["analysis", "commentary", "final"] ++ "." ++ " Channel must be included for every message." ++ "") from by decide]
    simp [String.append_assoc, goToLower]
    rw [if_pos (Or.inl (by decide : 0 < ("You are ChatGPT, a large language model trained by OpenAI.\nKnowledge cutoff: 2024-06\n\n" : String).length))]
    rw [← String.append_assoc]
    congr 1

/-- C3: the spec says a stray start token in the Header state is ignored
only for a hint-constructed parser and is a fatal error otherwise; in the
code `Process` ignores it unconditionally.  Amended statement: while in
the Header state the parser ignores an incoming start token for every
parser — with or without a role hint — only recording it in the token
log. -/
theorem claim_C3 (P : ParserEnv) (p : StreamParser) (hs : p.state = .header) :
    processTok P p tokStart = some { p with tokens := p.tokens ++ [tokStart] } := by
  unfold processTok
  dsimp only
  rw [hs]
  dsimp only
  rw [if_pos rfl]

/-- C3 counterexample: a parser constructed without a role hint, brought
into the Header state by a first start token, accepts a second, stray
start token instead of failing. -/
theorem claim_C3_counterexample :
    pNoHint.nextRole = none ∧
    processTok envW pNoHint tokStart =
      some { pNoHint with tokens := [tokStart], state := .header } ∧
    processTok envW { pNoHint with tokens := [tokStart], state := .header } tokStart =
      some { pNoHint with tokens := [tokStart, tokStart], state := .header } := by
  decide

/-- C3 witness: the amended theorem evaluated on a hint-constructed
parser. -/
theorem claim_C3_witness :
    (newStreamParser (some Role.assistant)).state = .header ∧
    processTok envW (newStreamParser (some Role.assistant)) tokStart =
      some { newStreamParser (some Role.assistant) with
               tokens := (newStreamParser (some Role.assistant)).tokens ++ [tokStart] } :=
  ⟨by decide, claim_C3 envW (newStreamParser (some Role.assistant)) (by decide)⟩

/-- C4: the spec says that under a role hint the detected name survives
only for a tool hint with no explicit name; in the code the detected
name is stored before the hint is applied, so the guarded reassignment
is a no-op.  Amended statement: under any role hint the parsed header
carries the hinted role together with the name detected from the header
text, for every hint. -/
theorem claim_C4 (P : ParserEnv) (r : Role) (h : List Nat) (s : String)
    (hdr : ParsedHeader)
    (hdec : P.decodeUTF8Str h = some s)
    (hph : parseHeaderFromTokens P (some r) h = some hdr) :
    hdr.author =
      ⟨r, (detectRoleAndAuthor (splitLeadingToken (normalizeHeader s)).1
            (splitLeadingToken (normalizeHeader s)).2).2⟩ := by
  unfold parseHeaderFromTokens at hph
  rw [hdec] at hph
  dsimp only at hph
  injection hph with hph
  subst hph
  dsimp only
  split_ifs <;> rfl

/-- C4 counterexample: with a non-tool (assistant) hint on header text
"tool:foo", the detected name "foo" is preserved in the message,
contradicting the claim that a non-tool hint never preserves the
detected name. -/
theorem claim_C4_counterexample :
    detectRoleAndAuthor "tool:foo" "" = (Role.tool, "foo") ∧
    parseHeaderFromTokens envW (some Role.assistant) (toksOf "tool:foo") =
      some ⟨⟨Role.assistant, "foo"⟩, "", "", ""⟩ := by
  decide

/-- C4 witness: the amended theorem evaluated with a tool hint on
header text "assistant:bob". -/
theorem claim_C4_witness :
    envW.decodeUTF8Str (toksOf "assistant:bob") = some "assistant:bob" ∧
    parseHeaderFromTokens envW (some Role.tool) (toksOf "assistant:bob") =
      some ⟨⟨Role.tool, "bob"⟩, "", "", ""⟩ ∧
    (⟨⟨Role.tool, "bob"⟩, "", "", ""⟩ : ParsedHeader).author =
      ⟨Role.tool,
       (detectRoleAndAuthor (splitLeadingToken (normalizeHeader "assistant:bob")).1
         (splitLeadingToken (normalizeHeader "assistant:bob")).2).2⟩ :=
  ⟨by decide, by decide,
   claim_C4 envW Role.tool (toksOf "assistant:bob") "assistant:bob"
     ⟨⟨Role.tool, "bob"⟩, "", "", ""⟩ (by decide) (by decide)⟩

/-- C10: in the Content state, a non-stop token whose single-token
decode resolves (through the rank store or the specials table) is
appended to the content buffer with the decoded bytes as the last
content delta; the message list and the state are untouched and no
error is raised. -/
theorem claim_C10 (P : ParserEnv) (p : StreamParser) (t : Nat) (bs : Bytes)
    (hs : p.state = .content) (ht : t ∉ stopAll)
    (hd : decodeTokBytes P t = some bs) :
    processTok P p t =
      some { p with tokens := p.tokens ++ [t],
                    contentToks := p.contentToks ++ [t],
                    lastDeltaBytes := bs } := by
  unfold processTok
  dsimp only
  rw [hs]
  dsimp only
  rw [if_neg ht, hd]

/-- C10 witness: the theorem evaluated on the special marker id
start (200006), whose delta is the literal marker text. -/
theorem claim_C10_witness :
    pContent.state = .content ∧ tokStart ∉ stopAll ∧
    decodeTokBytes envW tokStart = some (strBytes "<|start|>") ∧
    processTok envW pContent tokStart =
      some { pContent with tokens := pContent.tokens ++ [tokStart],
                           contentToks := pContent.contentToks ++ [tokStart],
                           lastDeltaBytes := strBytes "<|start|>" } :=
  ⟨rfl, by decide, by decide,
   claim_C10 envW pContent tokStart (strBytes "<|start|>") rfl (by decide) (by decide)⟩

end HarmonyGo
